import Mathlib

/-!
Shallow embedding of the license identification engine of pmezard/licenses
(`licenses.go`): the text normalizer / tokenizer, the Dice-coefficient
similarity scorer, the license file locator, the template parser and the
grouping reducer, together with theorems settling the specification claims.

Modelling conventions:
* Go byte strings are modelled as `List Char`; `bytes.ToLower` as a
  character-wise ASCII lowering.
* Go `float64` scores are modelled as exact rationals `ℚ`.  The one place
  where IEEE semantics is observable — `2*0/(0+0)` is NaN, and `NaN > x`
  is false — is modelled by an explicit guard skipping the comparison.
* Go maps `map[string]int` are modelled as association lists built in
  insertion order; map iteration order (which Go randomizes) is modelled
  by quantifying over permutations of the association list.
* Regular expressions are compiled by hand to decision procedures that
  follow Go's leftmost-first match semantics for the concrete patterns
  `reWords`, `reCopyright` and `reLicense` of the source.
-/

namespace Licenses

/-! ### Character classes -/

/-- Go regexp `\s`, i.e. the class `[\t\n\f\r ]` (no vertical tab). -/
def reSpace (c : Char) : Bool :=
  c = ' ' || c = Char.ofNat 9 || c = Char.ofNat 10 || c = Char.ofNat 12 || c = Char.ofNat 13

/-- `unicode.IsSpace` restricted to ASCII, as used by `strings.TrimSpace`:
`[\t\n\v\f\r ]`. -/
def trimSpace (c : Char) : Bool :=
  c = ' ' || c = Char.ofNat 9 || c = Char.ofNat 10 || c = Char.ofNat 11 ||
  c = Char.ofNat 12 || c = Char.ofNat 13

/-- Character class of Go regexp `[\w']` (`\w` is ASCII `[0-9A-Za-z_]`);
`reWords` tokenizes maximal runs of this class. -/
def isWordChar (c : Char) : Bool :=
  c.isAlphanum || c = Char.ofNat 95 || c = Char.ofNat 39

def lowerList (l : List Char) : List Char := l.map Char.toLower

def trimList (l : List Char) : List Char :=
  ((l.dropWhile trimSpace).reverse.dropWhile trimSpace).reverse

/-! ### `reCopyright.ReplaceAll`

The pattern is `(?i)\s*Copyright (?:©|\(c\)|\xC2\xA9)?\s*(?:\d{4}|\[year\]).*`.
`matchPfxCI` matches a literal pattern fragment case-insensitively and
carries the exact length accounting needed for termination. -/

def matchPfxCI (ps : List Char) (l : List Char) :
    Option {r : List Char // r.length + ps.length = l.length} :=
  match ps, l with
  | [], l => some ⟨l, by simp⟩
  | _ :: _, [] => none
  | p :: ps, c :: cs =>
    if c.toLower = p then
      match matchPfxCI ps cs with
      | none => none
      | some ⟨r, h⟩ => some ⟨r, by simp only [List.length_cons, ← h]; omega⟩
    else none

/-- The optional `(?:©|\(c\)|\xC2\xA9)?` sign.  In the source the first and
third alternative are the same two bytes (U+00A9 in UTF-8). -/
def stripSign (l : List Char) : {r : List Char // r.length ≤ l.length} :=
  match l with
  | c :: cs =>
    if c = Char.ofNat 169 then ⟨cs, by simp⟩
    else
      match matchPfxCI ("(c)".data) (c :: cs) with
      | some ⟨r, h⟩ => ⟨r, by simp only [← h]; omega⟩
      | none => ⟨c :: cs, Nat.le_refl _⟩
  | [] => ⟨[], Nat.le_refl _⟩

/-- The year alternative `(?:\d{4}|\[year\])`. -/
def stripYear (l : List Char) : Option {r : List Char // r.length ≤ l.length} :=
  match l with
  | c1 :: c2 :: c3 :: c4 :: rest =>
    if c1.isDigit && c2.isDigit && c3.isDigit && c4.isDigit then
      some ⟨rest, by simp; omega⟩
    else
      match matchPfxCI ("[year]".data) (c1 :: c2 :: c3 :: c4 :: rest) with
      | some ⟨r, h⟩ => some ⟨r, by have h6 : ("[year]".data).length = 6 := rfl; omega⟩
      | none => none
  | l' =>
    match matchPfxCI ("[year]".data) l' with
    | some ⟨r, h⟩ => some ⟨r, by have h6 : ("[year]".data).length = 6 := rfl; omega⟩
    | none => none

/-- Try to match `reCopyright` at the head of `l`; on success return the
suffix after the match (the trailing `.*` consumes up to the next newline,
since `.` does not match `\n`).  The returned suffix is strictly shorter
than `l`, which drives the termination of the scan. -/
def tryAt (l : List Char) : Option {r : List Char // r.length < l.length} :=
  let l1 := l.dropWhile reSpace
  match h2 : matchPfxCI ("copyright ".data) l1 with
  | none => none
  | some ⟨r2, hr2⟩ =>
    let s3 := (stripSign r2).1.dropWhile reSpace
    match stripYear s3 with
    | none => none
    | some ⟨r4, hr4⟩ =>
      some ⟨r4.dropWhile (fun c => !(c = Char.ofNat 10)), by
        have hd : l1.length ≤ l.length := (List.dropWhile_sublist reSpace).length_le
        have hs : (stripSign r2).1.length ≤ r2.length := (stripSign r2).2
        have hs2 : s3.length ≤ (stripSign r2).1.length :=
          (List.dropWhile_sublist reSpace).length_le
        have hw : (r4.dropWhile (fun c => !(c = Char.ofNat 10))).length ≤ r4.length :=
          (List.dropWhile_sublist _).length_le
        simp only [List.length_cons] at hr2
        omega⟩

/-- `reCopyright.ReplaceAll(data, nil)`: scan left to right, delete every
leftmost non-overlapping match, and resume scanning after the deleted
match.  Fuel-indexed so that the definition is structurally recursive and
kernel-computable; `stripCopyright` supplies sufficient fuel. -/
def stripCopyrightF : Nat → List Char → List Char
  | _, [] => []
  | 0, l => l
  | n + 1, c :: cs =>
    match tryAt (c :: cs) with
    | some r => stripCopyrightF n r.1
    | none => c :: stripCopyrightF n cs

def stripCopyright (l : List Char) : List Char := stripCopyrightF l.length l

/-- `true` iff `reCopyright` matches nowhere in `l`. -/
def noCopyrightMatch : List Char → Bool
  | [] => true
  | c :: cs => (tryAt (c :: cs)).isNone && noCopyrightMatch cs

/-- `cleanLicenseData`: lowercase, then strip copyright notice runs. -/
def cleanLicenseData (data : List Char) : List Char :=
  stripCopyright (lowerList data)

/-! ### `makeWordSet` -/

/-- A Go `map[string]int` from token to first-occurrence rank, as an
association list in insertion order. -/
abbrev WordSet := List (String × Nat)

/-- `_, ok := words[s]` — key membership. -/
def hasKey (ws : WordSet) (s : String) : Bool :=
  ws.any (fun p => p.1 == s)

/-- `reWords.FindAll`: the maximal runs of `[\w']+` characters, in order.
`acc` is the run currently being read, reversed. -/
def tokenizeAux : List Char → List Char → List String
  | [], acc => if acc.isEmpty then [] else [String.mk acc.reverse]
  | c :: cs, acc =>
    if isWordChar c then tokenizeAux cs (c :: acc)
    else if acc.isEmpty then tokenizeAux cs []
    else String.mk acc.reverse :: tokenizeAux cs []

def tokenize (l : List Char) : List String := tokenizeAux l []

/-- The loop of `makeWordSet`: `words[s] = i` for the first occurrence of
each token (`i` the index in the match list); later occurrences do not
overwrite. -/
def insertWords : List String → Nat → WordSet → WordSet
  | [], _, ws => ws
  | s :: rest, i, ws =>
    insertWords rest (i + 1) (if hasKey ws s then ws else ws ++ [(s, i)])

def makeWordSet (data : List Char) : WordSet :=
  insertWords (tokenize (cleanLicenseData data)) 0 []

/-! ### `matchTemplates` -/

structure Template where
  title : String
  nickname : String
  words : WordSet
deriving DecidableEq

structure MatchResult where
  template : Option Template
  score : ℚ
  extraWords : List String
  missingWords : List String
deriving DecidableEq

/-- Number of tokens of `ws` also present in `tw` (the `common` counter). -/
def commonCount (ws tw : WordSet) : Nat :=
  (ws.filter (fun p => hasKey tw p.1)).length

/-- Tokens of `ws` absent from `tw`, with their first-occurrence ranks
(the `extra` list). -/
def extraList (ws tw : WordSet) : WordSet :=
  ws.filter (fun p => !(hasKey tw p.1))

/-- Tokens of `tw` absent from `ws` (the `missing` list). -/
def missingList (ws tw : WordSet) : WordSet :=
  tw.filter (fun p => !(hasKey ws p.1))

def posLE (p q : String × Nat) : Prop := p.2 ≤ q.2

instance : DecidableRel posLE := fun p q => Nat.decLe p.2 q.2

/-- `sortAndReturnWords`: sort by first-occurrence rank, keep the text.
The Go code uses an unstable `sort.Sort`; because all ranks of one word
set are distinct the sorted sequence is unique, so any correct sort
models it. -/
def sortAndReturnWords (words : WordSet) : List String :=
  (List.insertionSort posLE words).map Prod.fst

/-- Accumulator of the template loop of `matchTemplates`. -/
structure MatchState where
  bestScore : ℚ
  bestTemplate : Option Template
  bestExtra : WordSet
  bestMissing : WordSet
deriving DecidableEq

def initState : MatchState := ⟨-1, none, [], []⟩

/-- Dice score of a candidate word set against a template word set.  Only
meaningful when `ws.length + tw.length ≠ 0`. -/
def dice (ws tw : WordSet) : ℚ :=
  2 * (commonCount ws tw : ℚ) / ((ws.length : ℚ) + (tw.length : ℚ))

/-- One iteration of the template loop.  When both word sets are empty the
Go score is `0/0 = NaN` and the update guard `score > bestScore` is false,
so the template is skipped — hence the explicit guard. -/
def matchStep (ws : WordSet) (st : MatchState) (t : Template) : MatchState :=
  if ws.length + t.words.length = 0 then st
  else if dice ws t.words > st.bestScore then
    ⟨dice ws t.words, some t, extraList ws t.words, missingList ws t.words⟩
  else st

/-- The core of `matchTemplates`, applied to an already-computed candidate
word set. -/
def matchTemplatesOn (ws : WordSet) (templates : List Template) : MatchResult :=
  let st := templates.foldl (matchStep ws) initState
  ⟨st.bestTemplate, st.bestScore,
   sortAndReturnWords st.bestExtra, sortAndReturnWords st.bestMissing⟩

def matchTemplates (license : List Char) (templates : List Template) : MatchResult :=
  matchTemplatesOn (makeWordSet license) templates

/-! ### `scoreLicenseName` -/

def licenseBases : List (List Char) :=
  ["license".data, "licence".data]

def unLicenseBases : List (List Char) :=
  ["license".data, "licence".data, "unlicense".data, "unlicence".data]

/-- Group 2 of `reLicense`: `(un)?licen[sc]e` plus `.md`, `.markdown` or
`.txt`. -/
def licenseExtNames : List (List Char) :=
  unLicenseBases.flatMap (fun b => [b ++ ".md".data, b ++ ".markdown".data, b ++ ".txt".data])

/-- Group 3 remainder `(?:\.[^.]+)?`: empty, or a dot followed by a
non-empty extension containing no dot. -/
def extRemainder (r : List Char) : Bool :=
  match r with
  | [] => true
  | c :: rest => c = Char.ofNat 46 && !rest.isEmpty && rest.all (fun d => !(d = Char.ofNat 46))

/-- Group 4 remainder `(?:[-_\d\.]+)?\.[^.]+`: everything up to and
including the last dot is over `[-_0-9.]` (non-empty), and the part after
the last dot is a non-empty extension. -/
def versionRemainder (r : List Char) : Bool :=
  let revExt := r.reverse.takeWhile (fun d => !(d = Char.ofNat 46))
  let revPre := r.reverse.dropWhile (fun d => !(d = Char.ofNat 46))
  !revPre.isEmpty && !revExt.isEmpty &&
    revPre.all (fun d => d = Char.ofNat 45 || d = Char.ofNat 95 || d = Char.ofNat 46 || d.isDigit)

/-- `scoreLicenseName`: the hand-compiled, case-insensitive `reLicense`
classifier.  The alternation is tried in source order (group 1 to 4). -/
def scoreLicenseName (name : String) : ℚ :=
  if unLicenseBases.any (fun b => lowerList name.data == b) then 1
  else if licenseExtNames.any (fun b => lowerList name.data == b) then 9 / 10
  else if ("copying".data).isPrefixOf (lowerList name.data) &&
      extRemainder ((lowerList name.data).drop 7) then 8 / 10
  else if ("copyright".data).isPrefixOf (lowerList name.data) &&
      extRemainder ((lowerList name.data).drop 9) then 8 / 10
  else if licenseBases.any (fun b => b.isPrefixOf (lowerList name.data) &&
      versionRemainder ((lowerList name.data).drop 7)) then 7 / 10
  else 0

/-! ### `findLicense` -/

/-- One entry of `ioutil.ReadDir`: a file name and whether
`fi.Mode().IsRegular()` holds. -/
structure FileEntry where
  name : String
  regular : Bool
deriving DecidableEq

/-- One step of the per-directory loop: skip non-regular entries, keep
the highest-scoring file name, first seen winning ties (strict `>`
update). -/
def dirBestStep (acc : ℚ × String) (fi : FileEntry) : ℚ × String :=
  if !fi.regular then acc
  else if scoreLicenseName fi.name > acc.1 then (scoreLicenseName fi.name, fi.name) else acc

def dirBest (fis : List FileEntry) : ℚ × String :=
  fis.foldl dirBestStep (0, "")

/-- A package import path, as its list of `/`-separated segments; the
parent directory (`filepath.Dir`) is `dropLast`, and the loop bound
`path != "."` is `path ≠ []`.  A directory listing oracle
`fs : List String → Option (List FileEntry)` stands for
`ioutil.ReadDir(filepath.Join(root, "src", path))`, `none` being a read
error.  Fuel-indexed for structural recursion; `findLicense` supplies
sufficient fuel. -/
def findLicenseF (fs : List String → Option (List FileEntry)) :
    Nat → List String → Except Unit (Option (List String))
  | _, [] => .ok none
  | 0, _ :: _ => .ok none
  | n + 1, p :: ps =>
    match fs (p :: ps) with
    | none => .error ()
    | some fis =>
      if (dirBest fis).2 = "" then findLicenseF fs n (p :: ps).dropLast
      else .ok (some ((p :: ps) ++ [(dirBest fis).2]))

def findLicense (fs : List String → Option (List FileEntry)) (path : List String) :
    Except Unit (Option (List String)) :=
  findLicenseF fs path.length path

/-- The chain of directories examined by the upward walk: the package
directory, its parent, and so on down to (excluding) the source root.
Fuel-indexed like `findLicenseF`, with `length` as sufficient fuel. -/
def ancestorChainF : Nat → List String → List (List String)
  | _, [] => []
  | 0, _ :: _ => []
  | n + 1, p :: ps => (p :: ps) :: ancestorChainF n (p :: ps).dropLast

def ancestorChain (p : List String) : List (List String) :=
  ancestorChainF p.length p

/-! ### `parseTemplate` -/

/-- Split at a separator character; `strings.Split` semantics (the result
is never empty, and empty fields are kept). -/
def splitChar (sep : Char) : List Char → List (List Char)
  | [] => [[]]
  | c :: cs =>
    let r := splitChar sep cs
    if c = sep then [] :: r
    else
      match r with
      | [] => [[c]]
      | h :: t => (c :: h) :: t

/-- `bufio.ScanLines` tokens: lines split at `\n`, one trailing `\r`
removed per line, no empty final token for input ending in a newline, no
token at all for empty input. -/
def scanLines (content : List Char) : List (List Char) :=
  if content.isEmpty then []
  else
    let parts := splitChar (Char.ofNat 10) content
    let parts := if content.getLast? = some (Char.ofNat 10) then parts.dropLast else parts
    parts.map (fun l => if l.getLast? = some (Char.ofNat 13) then l.dropLast else l)

/-- Model of `bufio.Scanner`'s only failure mode on an in-memory reader:
`ErrTooLong` when a line exceeds the 64KiB token buffer.  Byte length is
approximated by UTF-8 size. -/
def scannerOk (content : List Char) : Bool :=
  (splitChar (Char.ofNat 10) content).all
    (fun l => (l.map Char.utf8Size).sum ≤ 65535)

/-- State machine of `parseTemplate`: state 0 before the first `---`,
state 1 inside the front matter, state 2 in the body. -/
def parseStep (acc : Nat × List Char × List Char × List Char) (rawLine : List Char) :
    Nat × List Char × List Char × List Char :=
  let st := acc.1
  let ti := acc.2.1
  let ni := acc.2.2.1
  let tx := acc.2.2.2
  let line := trimList rawLine
  if st = 0 then
    if line = "---".data then (1, ti, ni, tx) else acc
  else if st = 1 then
    if line = "---".data then (2, ti, ni, tx)
    else if ("title:".data).isPrefixOf line then (1, trimList (line.drop 6), ni, tx)
    else if ("nickname:".data).isPrefixOf line then (1, ti, trimList (line.drop 9), tx)
    else acc
  else (st, ti, ni, tx ++ rawLine ++ [Char.ofNat 10])

def parseTemplate (content : List Char) : Except Unit Template :=
  if scannerOk content then
    let r := (scanLines content).foldl parseStep (0, [], [], [])
    .ok ⟨String.mk r.2.1, String.mk r.2.2.1, makeWordSet r.2.2.2⟩
  else .error ()

/-! ### `longestCommonPrefix` and `groupLicenses` -/

structure License where
  package : String
  score : ℚ
  template : Option Template
  path : String
  err : String
  extraWords : List String
  missingWords : List String
deriving DecidableEq

/-- The prefix tree over path segments. -/
inductive Node where
  | mk : List (List Char × Node) → Node

def Node.children : Node → List (List Char × Node)
  | .mk cs => cs

/-- Insert one segment list into the trie (the inner loop of
`longestCommonPrefix`). -/
def insertWord : Node → List (List Char) → Node
  | n, [] => n
  | .mk cs, p :: ps =>
    match cs.lookup p with
    | some c => .mk (cs.map (fun q => if q.1 = p then (p, insertWord c ps) else q))
    | none => .mk (cs ++ [(p, insertWord (.mk []) ps)])

/-- Walk from the root while exactly one child exists, collecting names. -/
def walk : Node → List (List Char)
  | .mk [(nm, c)] => nm :: walk c
  | _ => []

def segsOf (s : String) : List (List Char) := splitChar (Char.ofNat 47) s.data

def buildTrie (ws : List (List (List Char))) : Node :=
  ws.foldl insertWord (.mk [])

def longestCommonPrefix (licenses : List License) : String :=
  let root := buildTrie (licenses.map (fun l => segsOf l.package))
  String.mk (List.intercalate ([Char.ofNat 47]) (walk root))

/-- Append a row to its path's partition, keyed in first-encounter order
(model of the `paths` map of `groupLicenses`). -/
def upsert (m : List (String × List License)) (k : String) (l : License) :
    List (String × List License) :=
  match m.lookup k with
  | some _ => m.map (fun e => if e.1 = k then (e.1, e.2 ++ [l]) else e)
  | none => m ++ [(k, [l])]

def buildPaths (ls : List License) : List (String × List License) :=
  ls.foldl (fun m l => if l.path = "" then m else upsert m l.path l) []

/-- The merge pass over one partition: partitions of two or more rows are
collapsed to the first row relabelled with the common prefix; an empty
prefix is a hard error. -/
def mergeEntry (e : String × List License) : Except String (String × List License) :=
  match e.2 with
  | v0 :: _ :: _ =>
    let pre := longestCommonPrefix e.2
    if pre = "" then .error ("packages share the same license but not common prefix")
    else .ok (e.1, [⟨pre, v0.score, v0.template, v0.path, v0.err, v0.extraWords, v0.missingWords⟩])
  | _ => .ok e

def removeKey (m : List (String × List License)) (k : String) :
    List (String × List License) :=
  m.filter (fun e => !(e.1 == k))

/-- The output pass: rows with no path pass through; the first row of each
surviving partition emits the (possibly merged) representative, later
rows of the same partition are dropped. -/
def keepLoop : List License → List (String × List License) → List License
  | [], _ => []
  | l :: rest, m =>
    if l.path = "" then l :: keepLoop rest m
    else
      match m.lookup l.path with
      | some (v0 :: _) => v0 :: keepLoop rest (removeKey m l.path)
      | some [] => keepLoop rest (removeKey m l.path)
      | none => keepLoop rest m

/-- The merge pass over all partitions (the `for k, v := range paths`
loop); the first failing partition aborts with its error. -/
def mergeAll : List (String × List License) → Except String (List (String × List License))
  | [] => .ok []
  | e :: m =>
    match mergeEntry e with
    | .error err => .error err
    | .ok r =>
      match mergeAll m with
      | .error err => .error err
      | .ok m' => .ok (r :: m')

def groupLicenses (ls : List License) : Except String (List License) :=
  match mergeAll (buildPaths ls) with
  | .error e => .error e
  | .ok m => .ok (keepLoop ls m)

/-! ### Specification-side definitions (for refinement statements) -/

/-- Longest common prefix of two segment lists — follows the spec's words
(“deepest common `/`-segment prefix”), for comparison with the trie walk. -/
def lcpPair : List (List Char) → List (List Char) → List (List Char)
  | a :: as, b :: bs => if a = b then a :: lcpPair as bs else []
  | _, _ => []

/-- Deepest common segment prefix of a family of segment lists. -/
def commonPrefixSpec : List (List (List Char)) → List (List Char)
  | [] => []
  | w :: ws => ws.foldl lcpPair w

/-- The non-empty tails of a family of segment lists (the words that
continue below the first trie level). -/
def tailsNE (ws : List (List (List Char))) : List (List (List Char)) :=
  ws.filterMap (fun w =>
    match w with
    | _ :: t :: ts => some (t :: ts)
    | _ => none)

/-- The partition of the report rows sharing license file path `p`. -/
def partitionOf (ls : List License) (p : String) : List License :=
  ls.filter (fun l => l.path == p)

/-- The hypotheses under which the trie walk computes the deepest common
prefix of a partition's import paths: no import path is a proper
segment-prefix of another in the partition, and all of them share the
same non-empty first segment. -/
def goodPartition (part : List License) : Prop :=
  (∀ l ∈ part, ∀ l' ∈ part,
    segsOf l.package <+: segsOf l'.package → segsOf l.package = segsOf l'.package) ∧
  (∀ l ∈ part, ∀ l' ∈ part, (segsOf l.package).head? = (segsOf l'.package).head?) ∧
  (∀ l ∈ part, ∀ s, (segsOf l.package).head? = some s → s ≠ [])

/-- The spec's grouping example: packages `a/x`, `a/y`, `a/z` resolving to
one physical license file `L`. -/
def exGroupRows : List License :=
  [⟨"a/x", 1, none, "L", "", [], []⟩,
   ⟨"a/y", 1, none, "L", "", [], []⟩,
   ⟨"a/z", 1, none, "L", "", [], []⟩]

/-! ### Predicates used by the claim statements -/

/-- Two word sets carry the same tokens (set equality of the key sets). -/
def sameKeys (ws tw : WordSet) : Prop := ∀ s, hasKey ws s = hasKey tw s

/-- The keys of a word set are distinct (a Go map cannot repeat keys). -/
abbrev keysNodup (ws : WordSet) : Prop := (ws.map Prod.fst).Nodup

/-- The first-occurrence ranks of a word set are distinct. -/
abbrev posNodup (ws : WordSet) : Prop := (ws.map Prod.snd).Nodup

/-- The invariant of the template loop of `matchTemplates` after the
templates `pre` have been processed: either nothing has been compared yet
(every processed template was skipped by the NaN guard), or a best
template `bt` is installed, earlier templates scored strictly below it
and later processed ones at most it. -/
def loopInv (ws : WordSet) (pre : List Template) (st : MatchState) : Prop :=
  (st = initState ∧ ∀ t ∈ pre, ws.length + t.words.length = 0) ∨
  (∃ l₁ bt l₂, pre = l₁ ++ bt :: l₂ ∧ ws.length + bt.words.length ≠ 0 ∧
    st.bestTemplate = some bt ∧ st.bestScore = dice ws bt.words ∧
    st.bestExtra = extraList ws bt.words ∧ st.bestMissing = missingList ws bt.words ∧
    (∀ t ∈ l₁, ws.length + t.words.length ≠ 0 → dice ws t.words < dice ws bt.words) ∧
    (∀ t ∈ l₂, ws.length + t.words.length ≠ 0 → dice ws t.words ≤ dice ws bt.words))

/-- Templates equal up to the iteration order of their word maps. -/
def tmplRel (t t' : Template) : Prop :=
  t.title = t'.title ∧ t.nickname = t'.nickname ∧ List.Perm t.words t'.words

/-- Match-loop accumulators equal up to map iteration order. -/
def stateRel (st st' : MatchState) : Prop :=
  st.bestScore = st'.bestScore ∧
  ((st.bestTemplate = none ∧ st'.bestTemplate = none) ∨
    (∃ t t', st.bestTemplate = some t ∧ st'.bestTemplate = some t' ∧ tmplRel t t')) ∧
  List.Perm st.bestExtra st'.bestExtra ∧ posNodup st.bestExtra ∧
  List.Perm st.bestMissing st'.bestMissing ∧ posNodup st.bestMissing

/-! ## Theorems

### The copyright stripper -/

theorem stripCopyrightF_eq :
    ∀ (n : Nat) (l : List Char), l.length ≤ n → stripCopyrightF n l = stripCopyright l := by
  intro n
  induction n using Nat.strong_induction_on with
  | _ n ih =>
    intro l hl
    match l with
    | [] => cases n <;> rfl
    | c :: cs =>
      simp only [List.length_cons] at hl
      obtain ⟨k, rfl⟩ : ∃ k, n = k + 1 := ⟨n - 1, by omega⟩
      rw [stripCopyright]
      simp only [List.length_cons]
      cases htry : tryAt (c :: cs) with
      | some r =>
        have hr := r.2
        simp only [List.length_cons] at hr
        simp only [stripCopyrightF, htry]
        rw [ih k (by omega) r.1 (by omega), ih cs.length (by omega) r.1 (by omega)]
      | none =>
        simp only [stripCopyrightF, htry]
        rw [ih k (by omega) cs (by omega), ih cs.length (by omega) cs (by omega)]

theorem stripCopyright_cons (c : Char) (cs : List Char) :
    stripCopyright (c :: cs) =
      match tryAt (c :: cs) with
      | some r => stripCopyright r.1
      | none => c :: stripCopyright cs := by
  rw [stripCopyright]
  simp only [List.length_cons]
  cases htry : tryAt (c :: cs) with
  | some r =>
    have hr := r.2
    simp only [List.length_cons] at hr
    simp only [stripCopyrightF, htry]
    exact stripCopyrightF_eq cs.length r.1 (by omega)
  | none =>
    simp only [stripCopyrightF, htry]
    exact congrArg (c :: ·) (stripCopyrightF_eq cs.length cs (Nat.le_refl _))

/-- When `reCopyright` matches nowhere, the scan deletes nothing. -/
theorem stripCopyright_of_noMatch :
    ∀ l : List Char, noCopyrightMatch l = true → stripCopyright l = l := by
  intro l
  induction l with
  | nil => intro _; rfl
  | cons c cs ih =>
    intro h
    simp only [noCopyrightMatch, Bool.and_eq_true, Option.isNone_iff_eq_none] at h
    rw [stripCopyright_cons]
    simp only [h.1, ih h.2]

/-- C6 (counterexample): the copyright-line strip is not idempotent.  On
`"xcopyright (c)copyright 2000 a\n2001 b"` the first pass deletes the run
`copyright 2000 a` leaving `"xcopyright (c)\n2001 b"`, in which a second
pass finds a fresh match — the dangling `copyright (c)` now reaches the
year `2001` across the newline through the pattern's inner `\s*`. -/
theorem stripCopyright_not_idempotent :
    stripCopyright (stripCopyright ("xcopyright (c)copyright 2000 a\n2001 b".data)) ≠
      stripCopyright ("xcopyright (c)copyright 2000 a\n2001 b".data) := by
  decide

/-- C6 (amended): the copyright-line strip is idempotent on every text
whose once-stripped form contains no further copyright-notice match; in
general a second application can delete more text, because a deletion can
splice a dangling `copyright (c)` fragment with a year on a following
line. -/
theorem stripCopyright_idempotent_of_noMatch :
    ∀ l : List Char, noCopyrightMatch (stripCopyright l) = true →
      stripCopyright (stripCopyright l) = stripCopyright l :=
  fun _ h => stripCopyright_of_noMatch _ h

theorem stripCopyright_idempotent_of_noMatch_witness :
    noCopyrightMatch (stripCopyright ("copyright (c) 2015 foo\nbar".data)) = true ∧
      stripCopyright (stripCopyright ("copyright (c) 2015 foo\nbar".data)) =
        stripCopyright ("copyright (c) 2015 foo\nbar".data) :=
  ⟨by decide, stripCopyright_idempotent_of_noMatch _ (by decide)⟩

/-! ### Word sets and the Dice score -/

theorem hasKey_iff_mem {ws : WordSet} {s : String} :
    hasKey ws s = true ↔ s ∈ ws.map Prod.fst := by
  rw [hasKey, List.any_eq_true]
  constructor
  · rintro ⟨p, hp, hps⟩
    rw [beq_iff_eq] at hps
    exact hps ▸ List.mem_map_of_mem Prod.fst hp
  · intro h
    obtain ⟨p, hp, rfl⟩ := List.mem_map.mp h
    exact ⟨p, hp, beq_iff_eq.mpr rfl⟩

theorem hasKey_of_mem {ws : WordSet} {p : String × Nat} (h : p ∈ ws) :
    hasKey ws p.1 = true :=
  hasKey_iff_mem.mpr (List.mem_map_of_mem Prod.fst h)

theorem commonCount_le_left (ws tw : WordSet) : commonCount ws tw ≤ ws.length :=
  List.length_filter_le _ _

theorem commonCount_le_right {ws : WordSet} (tw : WordSet) (h : keysNodup ws) :
    commonCount ws tw ≤ tw.length := by
  have hsub : ((ws.filter (fun p => hasKey tw p.1)).map Prod.fst) ⊆ tw.map Prod.fst := by
    intro s hs
    simp only [List.mem_map] at hs
    obtain ⟨p, hp, rfl⟩ := hs
    exact hasKey_iff_mem.mp ((List.mem_filter.mp hp).2)
  have hnd : ((ws.filter (fun p => hasKey tw p.1)).map Prod.fst).Nodup :=
    ((List.filter_sublist ws).map Prod.fst).nodup h
  calc commonCount ws tw
      = ((ws.filter (fun p => hasKey tw p.1)).map Prod.fst).length := (List.length_map _ _).symm
    _ ≤ (tw.map Prod.fst).length := (List.subperm_of_subset hnd hsub).length_le
    _ = tw.length := List.length_map _ _

theorem dice_nonneg (ws tw : WordSet) : 0 ≤ dice ws tw := by
  unfold dice
  positivity

theorem dice_le_one {ws : WordSet} (tw : WordSet) (h : keysNodup ws)
    (hd : ws.length + tw.length ≠ 0) : dice ws tw ≤ 1 := by
  have hpos : (0 : ℚ) < (ws.length : ℚ) + (tw.length : ℚ) := by
    have := Nat.pos_of_ne_zero hd
    exact_mod_cast this
  rw [dice, div_le_one hpos]
  have h1 := commonCount_le_left ws tw
  have h2 := commonCount_le_right tw h
  have h3 : 2 * commonCount ws tw ≤ ws.length + tw.length := by omega
  exact_mod_cast h3

theorem dice_eq_one_iff {ws tw : WordSet} (hw : keysNodup ws) (ht : keysNodup tw)
    (hd : ws.length + tw.length ≠ 0) : dice ws tw = 1 ↔ sameKeys ws tw := by
  have hpos : (0 : ℚ) < (ws.length : ℚ) + (tw.length : ℚ) := by
    have := Nat.pos_of_ne_zero hd
    exact_mod_cast this
  constructor
  · intro h1
    rw [dice, div_eq_one_iff_eq (ne_of_gt hpos)] at h1
    have hNat : 2 * commonCount ws tw = ws.length + tw.length := by exact_mod_cast h1
    have hcl := commonCount_le_left ws tw
    have hcr := commonCount_le_right tw hw
    have hca : commonCount ws tw = ws.length := by omega
    have hcb : commonCount ws tw = tw.length := by omega
    have hall : ∀ p ∈ ws, hasKey tw p.1 = true := List.filter_length_eq_length.mp hca
    intro s
    by_cases hks : hasKey ws s = true
    · rw [hks]
      obtain ⟨p, hp, rfl⟩ := by
        simpa only [List.mem_map] using hasKey_iff_mem.mp hks
      exact (hall p hp).symm
    · have hks' : hasKey ws s = false := by simpa using hks
      rw [hks']
      by_contra hcon
      have htws : hasKey tw s = true := by
        cases h : hasKey tw s
        · exact absurd h.symm hcon
        · rfl
      have hmem : s ∈ tw.map Prod.fst := hasKey_iff_mem.mp htws
      have hnotin : s ∉ ws.map Prod.fst := fun hmm => hks (hasKey_iff_mem.mpr hmm)
      have hsub : ((ws.filter (fun p => hasKey tw p.1)).map Prod.fst) ⊆
          (tw.map Prod.fst).filter (fun y => !(y == s)) := by
        intro x hx
        simp only [List.mem_map] at hx
        obtain ⟨p, hp, rfl⟩ := hx
        have hx1 : p.1 ∈ tw.map Prod.fst := hasKey_iff_mem.mp ((List.mem_filter.mp hp).2)
        have hx2 : p.1 ≠ s := by
          intro hps
          exact hnotin (hps ▸ List.mem_map_of_mem Prod.fst (List.mem_of_mem_filter hp))
        simp [List.mem_filter, hx1, hx2]
      have hnd : ((ws.filter (fun p => hasKey tw p.1)).map Prod.fst).Nodup :=
        ((List.filter_sublist ws).map Prod.fst).nodup hw
      have hlt : ((tw.map Prod.fst).filter (fun y => !(y == s))).length <
          (tw.map Prod.fst).length := by
        refine List.length_filter_lt_length_iff_exists.mpr ⟨s, hmem, by simp⟩
      have hle : commonCount ws tw ≤ ((tw.map Prod.fst).filter (fun y => !(y == s))).length := by
        calc commonCount ws tw
            = ((ws.filter (fun p => hasKey tw p.1)).map Prod.fst).length :=
              (List.length_map _ _).symm
          _ ≤ _ := (List.subperm_of_subset hnd hsub).length_le
      rw [List.length_map] at hlt
      omega
  · intro hsk
    have hca : commonCount ws tw = ws.length :=
      List.filter_length_eq_length.mpr (fun p hp => by rw [← hsk]; exact hasKey_of_mem hp)
    have hab : ws.length = tw.length := by
      have h1 : (ws.map Prod.fst) ⊆ (tw.map Prod.fst) := by
        intro s hs
        exact hasKey_iff_mem.mp (by rw [← hsk]; exact hasKey_iff_mem.mpr hs)
      have h2 : (tw.map Prod.fst) ⊆ (ws.map Prod.fst) := by
        intro s hs
        exact hasKey_iff_mem.mp (by rw [hsk]; exact hasKey_iff_mem.mpr hs)
      have hl1 := (List.subperm_of_subset hw h1).length_le
      have hl2 := (List.subperm_of_subset ht h2).length_le
      simp only [List.length_map] at hl1 hl2
      omega
    rw [dice, hca, div_eq_one_iff_eq (ne_of_gt hpos)]
    rw [hab]
    ring

/-! ### The template loop invariant -/

theorem loopInv_init (ws : WordSet) : loopInv ws [] initState :=
  Or.inl ⟨rfl, by simp⟩

theorem loopInv_step {ws : WordSet} {pre : List Template} {st : MatchState}
    (t : Template) (h : loopInv ws pre st) :
    loopInv ws (pre ++ [t]) (matchStep ws st t) := by
  unfold matchStep
  by_cases hd : ws.length + t.words.length = 0
  · rw [if_pos hd]
    cases h with
    | inl h0 =>
      refine Or.inl ⟨h0.1, fun u hu => ?_⟩
      rcases List.mem_append.mp hu with h1 | h1
      · exact h0.2 u h1
      · simp only [List.mem_singleton] at h1
        exact h1 ▸ hd
    | inr hr =>
      obtain ⟨l₁, bt, l₂, hpre, hbd, hbt, hbs, hbe, hbm, hlt, hle⟩ := hr
      refine Or.inr ⟨l₁, bt, l₂ ++ [t], by rw [hpre]; simp, hbd, hbt, hbs, hbe, hbm, hlt, ?_⟩
      intro u hu hud
      rcases List.mem_append.mp hu with h1 | h1
      · exact hle u h1 hud
      · simp only [List.mem_singleton] at h1
        exact absurd (h1 ▸ hd) hud
  · rw [if_neg hd]
    by_cases hgt : dice ws t.words > st.bestScore
    · rw [if_pos hgt]
      cases h with
      | inl h0 =>
        refine Or.inr ⟨pre, t, [], by simp, hd, rfl, rfl, rfl, rfl, ?_, by simp⟩
        intro u hu hud
        exact absurd (h0.2 u hu) hud
      | inr hr =>
        obtain ⟨l₁, bt, l₂, hpre, hbd, hbt, hbs, hbe, hbm, hlt, hle⟩ := hr
        refine Or.inr ⟨pre, t, [], by simp, hd, rfl, rfl, rfl, rfl, ?_, by simp⟩
        intro u hu hud
        rw [hbs] at hgt
        rw [hpre] at hu
        rcases List.mem_append.mp hu with h1 | h1
        · exact lt_trans (hlt u h1 hud) hgt
        · rcases List.mem_cons.mp h1 with h2 | h2
          · exact h2 ▸ hgt
          · exact lt_of_le_of_lt (hle u h2 hud) hgt
    · rw [if_neg hgt]
      cases h with
      | inl h0 =>
        exfalso
        have h1 : st.bestScore = -1 := by rw [h0.1]; rfl
        have h2 : (0 : ℚ) ≤ dice ws t.words := dice_nonneg ws t.words
        rw [h1] at hgt
        exact hgt (lt_of_lt_of_le (by norm_num) h2)
      | inr hr =>
        obtain ⟨l₁, bt, l₂, hpre, hbd, hbt, hbs, hbe, hbm, hlt, hle⟩ := hr
        refine Or.inr ⟨l₁, bt, l₂ ++ [t], by rw [hpre]; simp, hbd, hbt, hbs, hbe, hbm, hlt, ?_⟩
        intro u hu hud
        rcases List.mem_append.mp hu with h1 | h1
        · exact hle u h1 hud
        · simp only [List.mem_singleton] at h1
          subst h1
          rw [← hbs]
          exact le_of_not_lt hgt

theorem loopInv_foldl {ws : WordSet} :
    ∀ (ts pre : List Template) (st : MatchState), loopInv ws pre st →
      loopInv ws (pre ++ ts) (ts.foldl (matchStep ws) st) := by
  intro ts
  induction ts with
  | nil => intro pre st h; simpa using h
  | cons t ts ih =>
    intro pre st h
    have h1 := ih (pre ++ [t]) (matchStep ws st t) (loopInv_step t h)
    simpa [List.append_assoc] using h1

theorem loopInv_run (ws : WordSet) (ts : List Template) :
    loopInv ws ts (ts.foldl (matchStep ws) initState) := by
  simpa using loopInv_foldl ts [] initState (loopInv_init ws)

/-- Characterisation of `matchTemplatesOn` whenever at least one template
survives the NaN guard: the result carries a best template, its Dice
score and its sorted extra/missing lists, templates before it score
strictly less, templates after it at most as much. -/
theorem matchTemplatesOn_spec (ws : WordSet) (ts : List Template)
    (h : ∃ t ∈ ts, ws.length + t.words.length ≠ 0) :
    ∃ l₁ bt l₂, ts = l₁ ++ bt :: l₂ ∧ ws.length + bt.words.length ≠ 0 ∧
      (matchTemplatesOn ws ts).template = some bt ∧
      (matchTemplatesOn ws ts).score = dice ws bt.words ∧
      (matchTemplatesOn ws ts).extraWords = sortAndReturnWords (extraList ws bt.words) ∧
      (matchTemplatesOn ws ts).missingWords = sortAndReturnWords (missingList ws bt.words) ∧
      (∀ t ∈ l₁, ws.length + t.words.length ≠ 0 → dice ws t.words < dice ws bt.words) ∧
      (∀ t ∈ l₂, ws.length + t.words.length ≠ 0 → dice ws t.words ≤ dice ws bt.words) := by
  have hInv := loopInv_run ws ts
  cases hInv with
  | inl h0 =>
    exfalso
    obtain ⟨t, ht, htd⟩ := h
    exact htd (h0.2 t ht)
  | inr hr =>
    obtain ⟨l₁, bt, l₂, hpre, hbd, hbt, hbs, hbe, hbm, hlt, hle⟩ := hr
    refine ⟨l₁, bt, l₂, hpre, hbd, hbt, hbs, ?_, ?_, hlt, hle⟩
    · show sortAndReturnWords (ts.foldl (matchStep ws) initState).bestExtra = _
      rw [hbe]
    · show sortAndReturnWords (ts.foldl (matchStep ws) initState).bestMissing = _
      rw [hbm]

theorem mem_sortAndReturnWords {l : WordSet} {s : String} :
    s ∈ sortAndReturnWords l ↔ s ∈ l.map Prod.fst :=
  ((List.perm_insertionSort posLE l).map Prod.fst).mem_iff

theorem length_sortAndReturnWords (l : WordSet) :
    (sortAndReturnWords l).length = l.length := by
  unfold sortAndReturnWords
  rw [List.length_map]
  exact (List.perm_insertionSort posLE l).length_eq

/-- C1 (counterexample): with the non-empty template list consisting of
one template with an empty word set and an empty candidate, the returned
score is the −1 sentinel, outside `[0, 1]` (in Go the only comparison is
`NaN > -1`, which is false, so no template is ever installed). -/
theorem matchTemplates_score_bounds_cex :
    ¬ (0 ≤ (matchTemplates [] [⟨"t", "", []⟩]).score ∧
        (matchTemplates [] [⟨"t", "", []⟩]).score ≤ 1) := by
  intro h
  have h1 : (matchTemplates [] [⟨"t", "", []⟩]).score = -1 := rfl
  rw [h1] at h
  exact absurd h.1 (by norm_num)

/-- C1 (amended): for every candidate word set and non-empty template
list such that the candidate and at least one template are not both
empty, the returned score satisfies `0 ≤ score ≤ 1`, a best template is
returned, and `score = 1` iff the candidate's token set and the best
template's token set are set-equal.  (When the candidate and every
template are empty, every comparison is against NaN and the function
returns the −1 sentinel with no template instead.) -/
theorem matchTemplates_score_bounds :
    ∀ (ws : WordSet) (ts : List Template), keysNodup ws → (∀ t ∈ ts, keysNodup t.words) →
      (∃ t ∈ ts, ws.length + t.words.length ≠ 0) →
      0 ≤ (matchTemplatesOn ws ts).score ∧ (matchTemplatesOn ws ts).score ≤ 1 ∧
      ∃ bt, (matchTemplatesOn ws ts).template = some bt ∧
        ((matchTemplatesOn ws ts).score = 1 ↔ sameKeys ws bt.words) := by
  intro ws ts hkw hkt hex
  obtain ⟨l₁, bt, l₂, hpre, hbd, hbt, hbs, _, _, _, _⟩ := matchTemplatesOn_spec ws ts hex
  have hbtmem : bt ∈ ts := by
    rw [hpre]
    exact List.mem_append_right _ (List.mem_cons_self _ _)
  refine ⟨by rw [hbs]; exact dice_nonneg ws bt.words,
          by rw [hbs]; exact dice_le_one bt.words hkw hbd,
          bt, hbt, ?_⟩
  rw [hbs]
  exact dice_eq_one_iff hkw (hkt bt hbtmem) hbd

theorem matchTemplates_score_bounds_witness :
    (keysNodup [("a", 0)] ∧
      (∀ t ∈ ([⟨"t", "", [("a", 0)]⟩] : List Template), keysNodup t.words) ∧
      (∃ t ∈ ([⟨"t", "", [("a", 0)]⟩] : List Template),
        ([("a", 0)] : WordSet).length + t.words.length ≠ 0)) ∧
    (0 ≤ (matchTemplatesOn [("a", 0)] [⟨"t", "", [("a", 0)]⟩]).score ∧
      (matchTemplatesOn [("a", 0)] [⟨"t", "", [("a", 0)]⟩]).score ≤ 1 ∧
      ∃ bt, (matchTemplatesOn [("a", 0)] [⟨"t", "", [("a", 0)]⟩]).template = some bt ∧
        ((matchTemplatesOn [("a", 0)] [⟨"t", "", [("a", 0)]⟩]).score = 1 ↔
          sameKeys [("a", 0)] bt.words)) :=
  ⟨⟨by decide, by decide, ⟨"t", "", [("a", 0)]⟩, by decide, by decide⟩,
   matchTemplates_score_bounds [("a", 0)] [⟨"t", "", [("a", 0)]⟩] (by decide) (by decide)
     ⟨⟨"t", "", [("a", 0)]⟩, by decide, by decide⟩⟩

/-- C2 (counterexample): when the template list is empty the function
returns the internal −1 sentinel as the score, not 0: the sentinel is
exposed to the caller. -/
theorem matchTemplates_sentinel_cex :
    (matchTemplates ("x".data) []).score = -1 ∧ (matchTemplates ("x".data) []).score ≠ 0 := by
  constructor
  · rfl
  · intro h
    have h1 : (matchTemplates ("x".data) []).score = -1 := rfl
    rw [h1] at h
    exact absurd h (by norm_num)

/-- C2 (amended): when the template list is empty `matchTemplates`
returns score −1 (the sentinel) and no template — the sentinel *is*
exposed in that case; whenever at least one template survives the NaN
guard (candidate and template not both empty) the returned score lies in
`[0, 1]`. -/
theorem matchTemplates_sentinel :
    ∀ (ws : WordSet) (ts : List Template),
      (ts = [] → matchTemplatesOn ws ts = ⟨none, -1, [], []⟩) ∧
      ((∃ t ∈ ts, ws.length + t.words.length ≠ 0) → keysNodup ws →
        0 ≤ (matchTemplatesOn ws ts).score ∧ (matchTemplatesOn ws ts).score ≤ 1) := by
  intro ws ts
  constructor
  · rintro rfl
    rfl
  · intro hex hkw
    obtain ⟨l₁, bt, l₂, hpre, hbd, hbt, hbs, _, _, _, _⟩ := matchTemplatesOn_spec ws ts hex
    exact ⟨by rw [hbs]; exact dice_nonneg ws bt.words,
           by rw [hbs]; exact dice_le_one bt.words hkw hbd⟩

theorem matchTemplates_sentinel_witness :
    (matchTemplatesOn [("a", 0)] [] = ⟨none, -1, [], []⟩) ∧
      (0 ≤ (matchTemplatesOn [("a", 0)] [⟨"t", "", []⟩]).score ∧
        (matchTemplatesOn [("a", 0)] [⟨"t", "", []⟩]).score ≤ 1) :=
  ⟨(matchTemplates_sentinel [("a", 0)] []).1 rfl,
   (matchTemplates_sentinel [("a", 0)] [⟨"t", "", []⟩]).2
     ⟨⟨"t", "", []⟩, by decide, by decide⟩ (by decide)⟩

/-- C5: for every candidate word set and template list on which every
Dice score is defined (no empty-against-empty comparison), the function
computes `score = 2·common/(|ws| + |tw|)` for each template and returns
the template attaining the strictly greatest score, the first template
in corpus order winning exact ties (templates strictly before the winner
score strictly less, all templates score at most the winner). -/
theorem matchTemplates_first_argmax :
    ∀ (ws : WordSet) (ts : List Template), ts ≠ [] →
      (∀ t ∈ ts, ws.length + t.words.length ≠ 0) →
      ∃ l₁ bt l₂, ts = l₁ ++ bt :: l₂ ∧
        (matchTemplatesOn ws ts).template = some bt ∧
        (matchTemplatesOn ws ts).score =
          2 * (commonCount ws bt.words : ℚ) / ((ws.length : ℚ) + (bt.words.length : ℚ)) ∧
        (∀ t ∈ l₁, dice ws t.words < dice ws bt.words) ∧
        (∀ t ∈ ts, dice ws t.words ≤ dice ws bt.words) := by
  intro ws ts hne hall
  obtain ⟨t0, ht0⟩ := List.exists_mem_of_ne_nil ts hne
  obtain ⟨l₁, bt, l₂, hpre, hbd, hbt, hbs, _, _, hlt, hle⟩ :=
    matchTemplatesOn_spec ws ts ⟨t0, ht0, hall t0 ht0⟩
  refine ⟨l₁, bt, l₂, hpre, hbt, hbs, ?_, ?_⟩
  · intro t ht
    have htm : t ∈ ts := by
      rw [hpre]
      exact List.mem_append_left _ ht
    exact hlt t ht (hall t htm)
  · intro t ht
    rw [hpre] at ht
    rcases List.mem_append.mp ht with h1 | h1
    · have htm : t ∈ ts := by
        rw [hpre]
        exact List.mem_append_left _ h1
      exact le_of_lt (hlt t h1 (hall t htm))
    · rcases List.mem_cons.mp h1 with h2 | h2
      · exact h2 ▸ le_refl _
      · have htm : t ∈ ts := by
          rw [hpre]
          exact List.mem_append_right _ (List.mem_cons_of_mem _ h2)
        exact hle t h2 (hall t htm)

theorem matchTemplates_first_argmax_witness :
    ((([⟨"t1", "", [("a", 0)]⟩, ⟨"t2", "", []⟩] : List Template) ≠ []) ∧
      (∀ t ∈ ([⟨"t1", "", [("a", 0)]⟩, ⟨"t2", "", []⟩] : List Template),
        ([("a", 0)] : WordSet).length + t.words.length ≠ 0)) ∧
    (∃ l₁ bt l₂,
      ([⟨"t1", "", [("a", 0)]⟩, ⟨"t2", "", []⟩] : List Template) = l₁ ++ bt :: l₂ ∧
      (matchTemplatesOn [("a", 0)] [⟨"t1", "", [("a", 0)]⟩, ⟨"t2", "", []⟩]).template = some bt ∧
      (matchTemplatesOn [("a", 0)] [⟨"t1", "", [("a", 0)]⟩, ⟨"t2", "", []⟩]).score =
        2 * (commonCount [("a", 0)] bt.words : ℚ) /
          ((([("a", 0)] : WordSet).length : ℚ) + (bt.words.length : ℚ)) ∧
      (∀ t ∈ l₁, dice [("a", 0)] t.words < dice [("a", 0)] bt.words) ∧
      (∀ t ∈ ([⟨"t1", "", [("a", 0)]⟩, ⟨"t2", "", []⟩] : List Template),
        dice [("a", 0)] t.words ≤ dice [("a", 0)] bt.words)) :=
  ⟨⟨by decide, by decide⟩,
   matchTemplates_first_argmax [("a", 0)] [⟨"t1", "", [("a", 0)]⟩, ⟨"t2", "", []⟩]
     (by decide) (by decide)⟩

/-- C7: for every candidate word set and every best template chosen by
the match, the returned extra and missing word lists are disjoint as
token sets, and `common + |extraWords| = |candidateWords|` — every
candidate token is either counted in `common` or listed in `extraWords`. -/
theorem matchTemplates_extra_missing_partition :
    ∀ (ws : WordSet) (ts : List Template) (bt : Template),
      (matchTemplatesOn ws ts).template = some bt →
      (∀ s ∈ (matchTemplatesOn ws ts).extraWords,
        s ∉ (matchTemplatesOn ws ts).missingWords) ∧
      commonCount ws bt.words + (matchTemplatesOn ws ts).extraWords.length = ws.length := by
  intro ws ts bt hbt
  have hInv := loopInv_run ws ts
  cases hInv with
  | inl h0 =>
    exfalso
    have hnone : (matchTemplatesOn ws ts).template = none := by
      show (ts.foldl (matchStep ws) initState).bestTemplate = none
      rw [h0.1]
      rfl
    rw [hbt] at hnone
    exact Option.noConfusion hnone
  | inr hr =>
    obtain ⟨l₁, bt', l₂, hpre, hbd, hbt', hbs, hbe, hbm, hlt, hle⟩ := hr
    have hbteq : bt' = bt := by
      have h1 : (matchTemplatesOn ws ts).template = some bt' := hbt'
      rw [hbt] at h1
      exact (Option.some.inj h1).symm
    subst hbteq
    have hex : (matchTemplatesOn ws ts).extraWords
        = sortAndReturnWords (extraList ws bt'.words) := by
      show sortAndReturnWords (ts.foldl (matchStep ws) initState).bestExtra = _
      rw [hbe]
    have hmi : (matchTemplatesOn ws ts).missingWords
        = sortAndReturnWords (missingList ws bt'.words) := by
      show sortAndReturnWords (ts.foldl (matchStep ws) initState).bestMissing = _
      rw [hbm]
    constructor
    · intro s hs hsm
      rw [hex] at hs
      rw [hmi] at hsm
      obtain ⟨p, hp, hps⟩ := List.mem_map.mp (mem_sortAndReturnWords.mp hs)
      obtain ⟨q, hq, hqs⟩ := List.mem_map.mp (mem_sortAndReturnWords.mp hsm)
      have hpf : (fun p => !(hasKey bt'.words p.1)) p = true := (List.mem_filter.mp hp).2
      simp only [Bool.not_eq_true'] at hpf
      have hqm : q ∈ bt'.words := List.mem_of_mem_filter hq
      have hqk : hasKey bt'.words q.1 = true := hasKey_of_mem hqm
      rw [hqs, ← hps] at hqk
      rw [hpf] at hqk
      exact Bool.noConfusion hqk
    · rw [hex, length_sortAndReturnWords]
      have hsplit := ws.length_eq_length_filter_add (fun p => hasKey bt'.words p.1)
      unfold commonCount extraList
      omega

theorem matchTemplates_extra_missing_partition_witness :
    ((matchTemplatesOn [("a", 0), ("b", 1)] [⟨"t", "", [("a", 0), ("c", 1)]⟩]).template
      = some ⟨"t", "", [("a", 0), ("c", 1)]⟩) ∧
    ((∀ s ∈ (matchTemplatesOn [("a", 0), ("b", 1)] [⟨"t", "", [("a", 0), ("c", 1)]⟩]).extraWords,
        s ∉ (matchTemplatesOn [("a", 0), ("b", 1)] [⟨"t", "", [("a", 0), ("c", 1)]⟩]).missingWords) ∧
      commonCount [("a", 0), ("b", 1)] [("a", 0), ("c", 1)] +
        (matchTemplatesOn [("a", 0), ("b", 1)] [⟨"t", "", [("a", 0), ("c", 1)]⟩]).extraWords.length
        = ([("a", 0), ("b", 1)] : WordSet).length) := by
  have hc : commonCount [("a", 0), ("b", 1)] [("a", 0), ("c", 1)] = 1 := by
    simp [commonCount, hasKey, List.filter]
  have hd : dice [("a", 0), ("b", 1)] [("a", 0), ("c", 1)] = 1 / 2 := by
    rw [dice, hc]
    norm_num
  have ht : (matchTemplatesOn [("a", 0), ("b", 1)] [⟨"t", "", [("a", 0), ("c", 1)]⟩]).template
      = some ⟨"t", "", [("a", 0), ("c", 1)]⟩ := by
    simp [matchTemplatesOn, matchStep, hd, initState]
    norm_num
  exact ⟨ht, matchTemplates_extra_missing_partition [("a", 0), ("b", 1)]
    [⟨"t", "", [("a", 0), ("c", 1)]⟩] ⟨"t", "", [("a", 0), ("c", 1)]⟩ ht⟩

/-! ### Determinism of the match under map iteration order -/

theorem insertWords_wf :
    ∀ (toks : List String) (i : Nat) (acc : WordSet),
      keysNodup acc → posNodup acc → (∀ p ∈ acc, p.2 < i) →
      keysNodup (insertWords toks i acc) ∧ posNodup (insertWords toks i acc) ∧
        ∀ p ∈ insertWords toks i acc, p.2 < i + toks.length := by
  intro toks
  induction toks with
  | nil =>
    intro i acc h1 h2 h3
    exact ⟨h1, h2, by simpa using h3⟩
  | cons s rest ih =>
    intro i acc h1 h2 h3
    rw [insertWords]
    by_cases hk : hasKey acc s
    · rw [if_pos hk]
      have hres := ih (i + 1) acc h1 h2 (fun p hp => Nat.lt_succ_of_lt (h3 p hp))
      refine ⟨hres.1, hres.2.1, fun p hp => ?_⟩
      have := hres.2.2 p hp
      simp only [List.length_cons]
      omega
    · rw [if_neg hk]
      have hk1 : keysNodup (acc ++ [(s, i)]) := by
        rw [keysNodup, List.map_append]
        rw [List.nodup_append]
        refine ⟨h1, by simp, ?_⟩
        intro x hx hxs
        simp only [List.map_cons, List.map_nil, List.mem_singleton] at hxs
        exact hk (hasKey_iff_mem.mpr (hxs ▸ hx))
      have hk2 : posNodup (acc ++ [(s, i)]) := by
        rw [posNodup, List.map_append]
        rw [List.nodup_append]
        refine ⟨h2, by simp, ?_⟩
        intro x hx hxs
        simp only [List.map_cons, List.map_nil, List.mem_singleton] at hxs
        obtain ⟨p, hp, rfl⟩ := List.mem_map.mp hx
        have := h3 p hp
        omega
      have hk3 : ∀ p ∈ acc ++ [(s, i)], p.2 < i + 1 := by
        intro p hp
        rcases List.mem_append.mp hp with h | h
        · exact Nat.lt_succ_of_lt (h3 p h)
        · simp only [List.mem_singleton] at h
          subst h
          exact Nat.lt_succ_self i
      have hres := ih (i + 1) (acc ++ [(s, i)]) hk1 hk2 hk3
      refine ⟨hres.1, hres.2.1, fun p hp => ?_⟩
      have := hres.2.2 p hp
      simp only [List.length_cons]
      omega

theorem makeWordSet_keysNodup (data : List Char) : keysNodup (makeWordSet data) :=
  (insertWords_wf _ 0 [] (by simp [keysNodup]) (by simp [posNodup]) (by simp)).1

theorem makeWordSet_posNodup (data : List Char) : posNodup (makeWordSet data) :=
  (insertWords_wf _ 0 [] (by simp [keysNodup]) (by simp [posNodup]) (by simp)).2.1

theorem hasKey_congr {ws ws' : WordSet} (h : List.Perm ws ws') (s : String) :
    hasKey ws s = hasKey ws' s := by
  refine Bool.eq_iff_iff.mpr ?_
  rw [hasKey_iff_mem, hasKey_iff_mem]
  exact (h.map Prod.fst).mem_iff

theorem commonCount_congr {ws ws' tw tw' : WordSet}
    (hw : List.Perm ws ws') (ht : List.Perm tw tw') :
    commonCount ws tw = commonCount ws' tw' := by
  unfold commonCount
  rw [List.filter_congr (fun p _ => hasKey_congr ht p.1)]
  exact (hw.filter _).length_eq

theorem dice_congr {ws ws' tw tw' : WordSet}
    (hw : List.Perm ws ws') (ht : List.Perm tw tw') :
    dice ws tw = dice ws' tw' := by
  unfold dice
  rw [commonCount_congr hw ht, hw.length_eq, ht.length_eq]

theorem extraList_perm {ws ws' tw tw' : WordSet}
    (hw : List.Perm ws ws') (ht : List.Perm tw tw') :
    List.Perm (extraList ws tw) (extraList ws' tw') := by
  unfold extraList
  rw [List.filter_congr (fun p _ => by rw [hasKey_congr ht p.1])]
  exact hw.filter _

theorem missingList_perm {ws ws' tw tw' : WordSet}
    (hw : List.Perm ws ws') (ht : List.Perm tw tw') :
    List.Perm (missingList ws tw) (missingList ws' tw') := by
  unfold missingList
  rw [List.filter_congr (fun p _ => by rw [hasKey_congr hw p.1])]
  exact ht.filter _

theorem posNodup_filter (p : String × Nat → Bool) {ws : WordSet} (h : posNodup ws) :
    posNodup (ws.filter p) :=
  ((List.filter_sublist ws).map Prod.snd).nodup h

theorem sortAndReturnWords_congr {l l' : WordSet}
    (h : List.Perm l l') (hp : posNodup l) :
    sortAndReturnWords l = sortAndReturnWords l' := by
  unfold sortAndReturnWords
  congr 1
  haveI : IsTotal (String × Nat) posLE := ⟨fun a b => Nat.le_total a.2 b.2⟩
  haveI : IsTrans (String × Nat) posLE := ⟨fun _ _ _ => Nat.le_trans⟩
  have hperm : List.Perm (List.insertionSort posLE l) (List.insertionSort posLE l') :=
    (List.perm_insertionSort _ _).trans (h.trans (List.perm_insertionSort _ _).symm)
  have hnd1 : posNodup (List.insertionSort posLE l) :=
    (((List.perm_insertionSort posLE l).map Prod.snd).nodup_iff).mpr hp
  have hnd2 : posNodup (List.insertionSort posLE l') :=
    (((List.perm_insertionSort posLE l').map Prod.snd).nodup_iff).mpr
      (((h.map Prod.snd).nodup_iff).mp hp)
  have hstrict : ∀ (m : WordSet), posNodup m → List.Sorted posLE m →
      List.Sorted (fun p q : String × Nat => p.2 < q.2) m := by
    intro m hm hs
    have hne : m.Pairwise (fun a b : String × Nat => a.2 ≠ b.2) := List.pairwise_map.mp hm
    exact (hs.and hne).imp (fun hab => Nat.lt_of_le_of_ne hab.1 hab.2)
  haveI : IsAntisymm (String × Nat) (fun p q : String × Nat => p.2 < q.2) :=
    ⟨fun a b h1 h2 => absurd (Nat.lt_trans h1 h2) (Nat.lt_irrefl _)⟩
  exact List.eq_of_perm_of_sorted hperm
    (hstrict _ hnd1 (List.sorted_insertionSort _ _))
    (hstrict _ hnd2 (List.sorted_insertionSort _ _))

theorem stateRel_init : stateRel initState initState :=
  ⟨rfl, Or.inl ⟨rfl, rfl⟩, List.Perm.refl _, by simp [posNodup, initState],
   List.Perm.refl _, by simp [posNodup, initState]⟩

theorem stateRel_step {ws ws' : WordSet} {st st' : MatchState} {t t' : Template}
    (hw : List.Perm ws ws') (hpw : posNodup ws)
    (ht : tmplRel t t') (hpt : posNodup t.words) (hrel : stateRel st st') :
    stateRel (matchStep ws st t) (matchStep ws' st' t') := by
  obtain ⟨hsc, htm, hex, hpex, hmi, hpmi⟩ := hrel
  obtain ⟨hti, hni, htw⟩ := ht
  unfold matchStep
  have hdeq : (ws.length + t.words.length = 0) ↔ (ws'.length + t'.words.length = 0) := by
    rw [hw.length_eq, htw.length_eq]
  by_cases hd : ws.length + t.words.length = 0
  · rw [if_pos hd, if_pos (hdeq.mp hd)]
    exact ⟨hsc, htm, hex, hpex, hmi, hpmi⟩
  · rw [if_neg hd, if_neg (fun hc => hd (hdeq.mpr hc))]
    rw [← dice_congr hw htw, ← hsc]
    by_cases hgt : dice ws t.words > st.bestScore
    · rw [if_pos hgt, if_pos hgt]
      exact ⟨rfl, Or.inr ⟨t, t', rfl, rfl, hti, hni, htw⟩,
        extraList_perm hw htw, posNodup_filter _ hpw,
        missingList_perm hw htw, posNodup_filter _ hpt⟩
    · rw [if_neg hgt, if_neg hgt]
      exact ⟨hsc, htm, hex, hpex, hmi, hpmi⟩

theorem stateRel_foldl {ws ws' : WordSet} (hw : List.Perm ws ws') (hpw : posNodup ws) :
    ∀ {ts ts' : List Template}, List.Forall₂ tmplRel ts ts' →
      (∀ t ∈ ts, posNodup t.words) →
      ∀ {st st' : MatchState}, stateRel st st' →
        stateRel (ts.foldl (matchStep ws) st) (ts'.foldl (matchStep ws') st') := by
  intro ts ts' hf
  induction hf with
  | nil =>
    intro _ st st' h
    exact h
  | cons hrel hf ih =>
    intro hpos st st' h
    exact ih (fun u hu => hpos u (List.mem_cons_of_mem _ hu))
      (stateRel_step hw hpw hrel (hpos _ (List.mem_cons_self _ _)) h)

/-- C8: for a fixed corpus and fixed candidate text, `matchTemplates`
returns the same score, the same extra and missing word lists (identical
contents in identical order), and the same best template, regardless of
the iteration order of the candidate's and the templates' word maps
(modelled as arbitrary permutations of the association lists). -/
theorem matchTemplates_deterministic :
    ∀ (license : List Char) (ws' : WordSet) (ts ts' : List Template),
      List.Perm (makeWordSet license) ws' →
      List.Forall₂ tmplRel ts ts' →
      (∀ t ∈ ts, posNodup t.words) →
      (matchTemplatesOn ws' ts').score = (matchTemplates license ts).score ∧
      (matchTemplatesOn ws' ts').extraWords = (matchTemplates license ts).extraWords ∧
      (matchTemplatesOn ws' ts').missingWords = (matchTemplates license ts).missingWords ∧
      (((matchTemplates license ts).template = none ∧
          (matchTemplatesOn ws' ts').template = none) ∨
        ∃ t t', (matchTemplates license ts).template = some t ∧
          (matchTemplatesOn ws' ts').template = some t' ∧ tmplRel t t') := by
  intro license ws' ts ts' hw hts hpos
  have hrel := stateRel_foldl hw (makeWordSet_posNodup license) hts hpos stateRel_init
  obtain ⟨hsc, htm, hex, hpex, hmi, hpmi⟩ := hrel
  refine ⟨hsc.symm, ?_, ?_, htm⟩
  · exact (sortAndReturnWords_congr hex hpex).symm
  · exact (sortAndReturnWords_congr hmi hpmi).symm

theorem matchTemplates_deterministic_witness :
    (List.Perm (makeWordSet ("b a".data)) [("a", 1), ("b", 0)] ∧
      (∀ t ∈ ([⟨"t", "x", [("p", 0), ("q", 1)]⟩] : List Template), posNodup t.words)) ∧
    ((matchTemplatesOn [("a", 1), ("b", 0)] [⟨"t", "x", [("q", 1), ("p", 0)]⟩]).score =
        (matchTemplates ("b a".data) [⟨"t", "x", [("p", 0), ("q", 1)]⟩]).score ∧
      (matchTemplatesOn [("a", 1), ("b", 0)] [⟨"t", "x", [("q", 1), ("p", 0)]⟩]).extraWords =
        (matchTemplates ("b a".data) [⟨"t", "x", [("p", 0), ("q", 1)]⟩]).extraWords ∧
      (matchTemplatesOn [("a", 1), ("b", 0)] [⟨"t", "x", [("q", 1), ("p", 0)]⟩]).missingWords =
        (matchTemplates ("b a".data) [⟨"t", "x", [("p", 0), ("q", 1)]⟩]).missingWords ∧
      (((matchTemplates ("b a".data) [⟨"t", "x", [("p", 0), ("q", 1)]⟩]).template = none ∧
          (matchTemplatesOn [("a", 1), ("b", 0)]
            [⟨"t", "x", [("q", 1), ("p", 0)]⟩]).template = none) ∨
        ∃ t t',
          (matchTemplates ("b a".data) [⟨"t", "x", [("p", 0), ("q", 1)]⟩]).template = some t ∧
          (matchTemplatesOn [("a", 1), ("b", 0)]
            [⟨"t", "x", [("q", 1), ("p", 0)]⟩]).template = some t' ∧ tmplRel t t')) :=
  ⟨⟨by decide, by decide⟩,
   matchTemplates_deterministic ("b a".data) [("a", 1), ("b", 0)]
     [⟨"t", "x", [("p", 0), ("q", 1)]⟩] [⟨"t", "x", [("q", 1), ("p", 0)]⟩]
     (by decide)
     (List.Forall₂.cons ⟨rfl, rfl, by decide⟩ List.Forall₂.nil)
     (by decide)⟩

/-! ### The license file locator -/

theorem ancestorChain_cons (a : String) (ps : List String) :
    ancestorChain (a :: ps) = (a :: ps) :: ancestorChain ((a :: ps).dropLast) := by
  rw [ancestorChain, ancestorChain]
  simp only [List.length_cons]
  rw [ancestorChainF]
  congr 1
  rw [show ((a :: ps).dropLast).length = ps.length from by rw [List.length_dropLast]; simp]

theorem findLicense_cons (fs : List String → Option (List FileEntry)) (a : String)
    (ps : List String) :
    findLicense fs (a :: ps) =
      match fs (a :: ps) with
      | none => .error ()
      | some fis =>
        if (dirBest fis).2 = "" then findLicense fs ((a :: ps).dropLast)
        else .ok (some ((a :: ps) ++ [(dirBest fis).2])) := by
  rw [findLicense]
  simp only [List.length_cons]
  rw [findLicenseF]
  cases hfs : fs (a :: ps) with
  | none => rfl
  | some fis =>
    by_cases hb : (dirBest fis).2 = ""
    · simp only [if_pos hb]
      rw [findLicense]
      congr 1
      rw [show ((a :: ps).dropLast).length = ps.length from by rw [List.length_dropLast]; simp]
    · simp only [if_neg hb]

theorem findLicense_cons_none (fs : List String → Option (List FileEntry)) (a : String)
    (ps : List String) (h : fs (a :: ps) = none) :
    findLicense fs (a :: ps) = .error () := by
  rw [findLicense_cons, h]

theorem findLicense_cons_some (fs : List String → Option (List FileEntry)) (a : String)
    (ps : List String) (fis : List FileEntry) (h : fs (a :: ps) = some fis) :
    findLicense fs (a :: ps) =
      if (dirBest fis).2 = "" then findLicense fs ((a :: ps).dropLast)
      else .ok (some ((a :: ps) ++ [(dirBest fis).2])) := by
  rw [findLicense_cons, h]

theorem ancestorChain_length : ∀ (p : List String), (ancestorChain p).length = p.length := by
  have H : ∀ (n : Nat) (p : List String), p.length ≤ n →
      (ancestorChain p).length = p.length := by
    intro n
    induction n with
    | zero =>
      intro p hp
      have hnil : p = [] := List.length_eq_zero.mp (Nat.le_zero.mp hp)
      subst hnil
      rfl
    | succ k ih =>
      intro p hp
      match p with
      | [] => rfl
      | a :: ps =>
        simp only [List.length_cons] at hp
        rw [ancestorChain_cons]
        simp only [List.length_cons]
        rw [ih ((a :: ps).dropLast)
          (by rw [List.length_dropLast]; simp only [List.length_cons]; omega)]
        rw [List.length_dropLast]
        simp
  exact fun p => H p.length p (Nat.le_refl _)

theorem findLicense_locality :
    ∀ (p : List String) (fs fs' : List String → Option (List FileEntry)),
      (∀ d ∈ ancestorChain p, fs d = fs' d) → findLicense fs p = findLicense fs' p := by
  have H : ∀ (n : Nat) (p : List String), p.length ≤ n →
      ∀ (fs fs' : List String → Option (List FileEntry)),
        (∀ d ∈ ancestorChain p, fs d = fs' d) → findLicense fs p = findLicense fs' p := by
    intro n
    induction n with
    | zero =>
      intro p hp
      have hnil : p = [] := List.length_eq_zero.mp (Nat.le_zero.mp hp)
      subst hnil
      intro fs fs' _
      rfl
    | succ k ih =>
      intro p hp fs fs' h
      match p with
      | [] => rfl
      | a :: ps =>
        simp only [List.length_cons] at hp
        have hp0 : fs (a :: ps) = fs' (a :: ps) :=
          h _ (by rw [ancestorChain_cons]; exact List.mem_cons_self _ _)
        cases hfs : fs (a :: ps) with
        | none =>
          rw [findLicense_cons_none fs a ps hfs,
            findLicense_cons_none fs' a ps (by rw [← hp0]; exact hfs)]
        | some fis =>
          rw [findLicense_cons_some fs a ps fis hfs,
            findLicense_cons_some fs' a ps fis (by rw [← hp0]; exact hfs)]
          by_cases hb : (dirBest fis).2 = ""
          · rw [if_pos hb, if_pos hb]
            refine ih ((a :: ps).dropLast)
              (by rw [List.length_dropLast]; simp only [List.length_cons]; omega) fs fs' ?_
            intro d hd
            exact h d (by rw [ancestorChain_cons]; exact List.mem_cons_of_mem _ hd)
          · rw [if_neg hb, if_neg hb]
  exact fun p => H p.length p (Nat.le_refl _)

/-- C9: for every non-empty relative import path (modelled as its
non-empty list of `/`-segments), the upward walk of `findLicense`
terminates after at most one directory read per path segment: the chain
of examined directories has exactly one entry per segment, starts at the
package's own directory with each further entry dropping the last
segment, and the result depends on the directory oracle only at the
entries of that chain. -/
theorem findLicense_terminates_per_segment :
    ∀ (p : List String), p ≠ [] →
      (ancestorChain p).length = p.length ∧
      ancestorChain p = p :: ancestorChain p.dropLast ∧
      ∀ (fs fs' : List String → Option (List FileEntry)),
        (∀ d ∈ ancestorChain p, fs d = fs' d) → findLicense fs p = findLicense fs' p := by
  intro p hp
  match p with
  | [] => exact absurd rfl hp
  | a :: ps =>
    exact ⟨ancestorChain_length _, ancestorChain_cons a ps,
      fun fs fs' h => findLicense_locality _ fs fs' h⟩

theorem findLicense_terminates_per_segment_witness :
    ((["a", "b"] : List String) ≠ []) ∧
      ((ancestorChain ["a", "b"]).length = (["a", "b"] : List String).length ∧
        ancestorChain ["a", "b"] = ["a", "b"] :: ancestorChain (["a", "b"] : List String).dropLast ∧
        ∀ (fs fs' : List String → Option (List FileEntry)),
          (∀ d ∈ ancestorChain ["a", "b"], fs d = fs' d) →
            findLicense fs ["a", "b"] = findLicense fs' ["a", "b"]) :=
  ⟨by decide, findLicense_terminates_per_segment ["a", "b"] (by decide)⟩

theorem scoreLicenseName_nonneg (name : String) : 0 ≤ scoreLicenseName name := by
  rw [scoreLicenseName]
  split_ifs <;> norm_num

theorem scoreLicenseName_empty : scoreLicenseName "" = 0 := rfl

theorem dirBest_fold_inv :
    ∀ (fis : List FileEntry) (acc : ℚ × String), 0 ≤ acc.1 → (acc.2 = "" ↔ ¬ 0 < acc.1) →
      (0 ≤ (fis.foldl dirBestStep acc).1 ∧
        ((fis.foldl dirBestStep acc).2 = "" ↔ ¬ 0 < (fis.foldl dirBestStep acc).1)) ∧
      acc.1 ≤ (fis.foldl dirBestStep acc).1 ∧
      ((∃ fi ∈ fis, fi.regular = true ∧ 0 < scoreLicenseName fi.name) →
        0 < (fis.foldl dirBestStep acc).1) := by
  intro fis
  induction fis with
  | nil =>
    intro acc h0 hiff
    refine ⟨⟨h0, hiff⟩, le_refl _, ?_⟩
    rintro ⟨fi, hfi, -⟩
    exact absurd hfi (List.not_mem_nil fi)
  | cons fi fis ih =>
    intro acc h0 hiff
    rw [List.foldl_cons]
    have hstep0 : 0 ≤ (dirBestStep acc fi).1 ∧ ((dirBestStep acc fi).2 = "" ↔
        ¬ 0 < (dirBestStep acc fi).1) ∧ acc.1 ≤ (dirBestStep acc fi).1 := by
      rw [dirBestStep]
      by_cases hr : !fi.regular
      · rw [if_pos hr]
        exact ⟨h0, hiff, le_refl _⟩
      · rw [if_neg hr]
        by_cases hsc : scoreLicenseName fi.name > acc.1
        · rw [if_pos hsc]
          have hpos : 0 < scoreLicenseName fi.name := lt_of_le_of_lt h0 hsc
          refine ⟨le_of_lt hpos, ?_, le_of_lt hsc⟩
          constructor
          · intro hn
            exfalso
            have : scoreLicenseName fi.name = 0 := by
              have : fi.name = "" := hn
              rw [this, scoreLicenseName_empty]
            rw [this] at hpos
            exact absurd hpos (lt_irrefl 0)
          · intro hn
            exact absurd hpos hn
        · rw [if_neg hsc]
          exact ⟨h0, hiff, le_refl _⟩
    have hres := ih (dirBestStep acc fi) hstep0.1 hstep0.2.1
    refine ⟨hres.1, le_trans hstep0.2.2 hres.2.1, ?_⟩
    rintro ⟨fj, hfj, hreg, hpos⟩
    rcases List.mem_cons.mp hfj with h1 | h1
    · subst h1
      -- after processing fj itself the accumulator is positive
      have hstep_pos : 0 < (dirBestStep acc fj).1 := by
        rw [dirBestStep]
        rw [if_neg (by rw [hreg]; simp)]
        by_cases hsc : scoreLicenseName fj.name > acc.1
        · rw [if_pos hsc]
          exact lt_of_le_of_lt h0 hsc
        · rw [if_neg hsc]
          exact lt_of_lt_of_le hpos (le_of_not_lt hsc)
      exact lt_of_lt_of_le hstep_pos hres.2.1
    · exact hres.2.2 ⟨fj, h1, hreg, hpos⟩

theorem dirBest_no_candidate :
    ∀ (fis : List FileEntry),
      (¬ ∃ fi ∈ fis, fi.regular = true ∧ 0 < scoreLicenseName fi.name) →
      fis.foldl dirBestStep ((0 : ℚ), "") = (0, "") := by
  intro fis
  induction fis with
  | nil => intro _; rfl
  | cons fi fis ih =>
    intro h
    rw [List.foldl_cons]
    have hstep : dirBestStep ((0 : ℚ), "") fi = (0, "") := by
      rw [dirBestStep]
      by_cases hr : !fi.regular
      · rw [if_pos hr]
      · rw [if_neg hr]
        have hreg : fi.regular = true := by
          cases h2 : fi.regular
          · rw [h2] at hr
            exact absurd rfl hr
          · rfl
        have hnp : ¬ 0 < scoreLicenseName fi.name := by
          intro hpos
          exact h ⟨fi, List.mem_cons_self _ _, hreg, hpos⟩
        rw [if_neg (by simpa using hnp)]
    rw [hstep]
    exact ih (fun ⟨fj, hfj, hj⟩ => h ⟨fj, List.mem_cons_of_mem _ hfj, hj⟩)

/-- `bestName` is empty exactly when the directory holds no regular file
with a positive filename score. -/
theorem dirBest_name_empty_iff (fis : List FileEntry) :
    (dirBest fis).2 = "" ↔
      ¬ ∃ fi ∈ fis, fi.regular = true ∧ 0 < scoreLicenseName fi.name := by
  constructor
  · intro h hex
    have hinv := dirBest_fold_inv fis (0, "") (le_refl 0) (by norm_num)
    exact (hinv.1.2.mp h) (hinv.2.2 hex)
  · intro h
    rw [dirBest, dirBest_no_candidate fis h]

theorem findLicense_none_of_no_candidate :
    ∀ (p : List String) (fs : List String → Option (List FileEntry)),
      (∀ d ∈ ancestorChain p, ∃ fis, fs d = some fis ∧
        ¬ ∃ fi ∈ fis, fi.regular = true ∧ 0 < scoreLicenseName fi.name) →
      findLicense fs p = .ok none := by
  have H : ∀ (n : Nat) (p : List String), p.length ≤ n →
      ∀ (fs : List String → Option (List FileEntry)),
        (∀ d ∈ ancestorChain p, ∃ fis, fs d = some fis ∧
          ¬ ∃ fi ∈ fis, fi.regular = true ∧ 0 < scoreLicenseName fi.name) →
        findLicense fs p = .ok none := by
    intro n
    induction n with
    | zero =>
      intro p hp
      have hnil : p = [] := List.length_eq_zero.mp (Nat.le_zero.mp hp)
      subst hnil
      intro fs _
      rfl
    | succ k ih =>
      intro p hp fs h
      match p with
      | [] => rfl
      | a :: ps =>
        simp only [List.length_cons] at hp
        obtain ⟨fis, hfs, hno⟩ :=
          h (a :: ps) (by rw [ancestorChain_cons]; exact List.mem_cons_self _ _)
        rw [findLicense_cons_some fs a ps fis hfs]
        rw [if_pos (dirBest_name_empty_iff fis |>.mpr hno)]
        refine ih ((a :: ps).dropLast)
          (by rw [List.length_dropLast]; simp only [List.length_cons]; omega) fs ?_
        intro d hd
        exact h d (by rw [ancestorChain_cons]; exact List.mem_cons_of_mem _ hd)
  exact fun p fs h => H p.length p (Nat.le_refl _) fs h

theorem findLicense_found_at_nearest :
    ∀ (p : List String) (fs : List String → Option (List FileEntry))
      (pre : List (List String)) (d : List String) (post : List (List String)),
      ancestorChain p = pre ++ d :: post →
      (∀ d' ∈ pre, ∃ fis, fs d' = some fis ∧
        ¬ ∃ fi ∈ fis, fi.regular = true ∧ 0 < scoreLicenseName fi.name) →
      ∀ fis, fs d = some fis →
        (∃ fi ∈ fis, fi.regular = true ∧ 0 < scoreLicenseName fi.name) →
        findLicense fs p = .ok (some (d ++ [(dirBest fis).2])) := by
  have H : ∀ (n : Nat) (p : List String), p.length ≤ n →
      ∀ (fs : List String → Option (List FileEntry)) (pre : List (List String))
        (d : List String) (post : List (List String)),
        ancestorChain p = pre ++ d :: post →
        (∀ d' ∈ pre, ∃ fis, fs d' = some fis ∧
          ¬ ∃ fi ∈ fis, fi.regular = true ∧ 0 < scoreLicenseName fi.name) →
        ∀ fis, fs d = some fis →
          (∃ fi ∈ fis, fi.regular = true ∧ 0 < scoreLicenseName fi.name) →
          findLicense fs p = .ok (some (d ++ [(dirBest fis).2])) := by
    intro n
    induction n with
    | zero =>
      intro p hp
      have hnil : p = [] := List.length_eq_zero.mp (Nat.le_zero.mp hp)
      subst hnil
      intro fs pre d post hchain
      exfalso
      have : ancestorChain ([] : List String) = [] := rfl
      rw [this] at hchain
      exact List.append_ne_nil_of_right_ne_nil pre (List.cons_ne_nil d post) hchain.symm
    | succ k ih =>
      intro p hp fs pre d post hchain hpre fis hfs hpos
      match p with
      | [] =>
        exfalso
        have : ancestorChain ([] : List String) = [] := rfl
        rw [this] at hchain
        exact List.append_ne_nil_of_right_ne_nil pre (List.cons_ne_nil d post) hchain.symm
      | a :: ps =>
        simp only [List.length_cons] at hp
        rw [ancestorChain_cons] at hchain
        cases pre with
        | nil =>
          simp only [List.nil_append] at hchain
          obtain ⟨hd, -⟩ := List.cons.inj hchain
          subst hd
          rw [findLicense_cons_some fs a ps fis hfs]
          rw [if_neg (fun hb => (dirBest_name_empty_iff fis |>.mp hb) hpos)]
        | cons q pre' =>
          simp only [List.cons_append] at hchain
          obtain ⟨hq, hrest⟩ := List.cons.inj hchain
          obtain ⟨fis0, hfs0, hno0⟩ := hpre q (List.mem_cons_self _ _)
          rw [← hq] at hfs0
          rw [findLicense_cons_some fs a ps fis0 hfs0]
          rw [if_pos (dirBest_name_empty_iff fis0 |>.mpr hno0)]
          refine ih ((a :: ps).dropLast)
            (by rw [List.length_dropLast]; simp only [List.length_cons]; omega)
            fs pre' d post hrest (fun d' hd' => hpre d' (List.mem_cons_of_mem _ hd'))
            fis hfs hpos
  exact fun p fs pre d post h1 h2 fis h3 h4 =>
    H p.length p (Nat.le_refl _) fs pre d post h1 h2 fis h3 h4

/-- C4: the upward walk returns the candidate of the *nearest* directory
(starting at the package directory) holding any regular file with a
positive filename score, regardless of what farther ancestors contain
(in particular even when a farther ancestor holds a higher-scoring
file); if no directory of the ancestor chain holds a positive-scoring
regular file, it returns none. -/
theorem findLicense_nearest_wins :
    ∀ (fs : List String → Option (List FileEntry)) (p : List String),
      ((∀ d ∈ ancestorChain p, ∃ fis, fs d = some fis ∧
          ¬ ∃ fi ∈ fis, fi.regular = true ∧ 0 < scoreLicenseName fi.name) →
        findLicense fs p = .ok none) ∧
      (∀ (pre : List (List String)) (d : List String) (post : List (List String)),
        ancestorChain p = pre ++ d :: post →
        (∀ d' ∈ pre, ∃ fis, fs d' = some fis ∧
          ¬ ∃ fi ∈ fis, fi.regular = true ∧ 0 < scoreLicenseName fi.name) →
        ∀ fis, fs d = some fis →
          (∃ fi ∈ fis, fi.regular = true ∧ 0 < scoreLicenseName fi.name) →
          findLicense fs p = .ok (some (d ++ [(dirBest fis).2]))) :=
  fun fs p =>
    ⟨findLicense_none_of_no_candidate p fs,
     fun pre d post h1 h2 fis h3 h4 =>
       findLicense_found_at_nearest p fs pre d post h1 h2 fis h3 h4⟩

/-- Witness for C4, on the spec's own scenario: the package directory
`a/b/c` holds nothing, the nearer ancestor `a/b` holds `COPYING`
(score 0.8), the farther ancestor `a` holds `LICENSE` (score 1.0); the
walk returns `a/b/COPYING`. -/
theorem findLicense_nearest_wins_witness :
    (ancestorChain ["a", "b", "c"] = [["a", "b", "c"]] ++ ["a", "b"] :: [["a"]] ∧
      (∃ fi ∈ [FileEntry.mk "COPYING" true], fi.regular = true ∧
        0 < scoreLicenseName fi.name)) ∧
    findLicense
      (fun d => if d = ["a", "b", "c"] then some []
        else if d = ["a", "b"] then some [FileEntry.mk "COPYING" true]
        else if d = ["a"] then some [FileEntry.mk "LICENSE" true] else none)
      ["a", "b", "c"]
      = .ok (some (["a", "b"] ++ [(dirBest [FileEntry.mk "COPYING" true]).2])) := by
  have hpos : ∃ fi ∈ [FileEntry.mk "COPYING" true], fi.regular = true ∧
      0 < scoreLicenseName fi.name :=
    ⟨FileEntry.mk "COPYING" true, List.mem_singleton.mpr rfl, rfl,
      by rw [show scoreLicenseName ("COPYING") = 8 / 10 from rfl]; norm_num⟩
  refine ⟨⟨by decide, hpos⟩, ?_⟩
  refine (findLicense_nearest_wins _ ["a", "b", "c"]).2
    [["a", "b", "c"]] ["a", "b"] [["a"]] (by decide) ?_ [FileEntry.mk "COPYING" true] rfl hpos
  intro d' hd'
  simp only [List.mem_singleton] at hd'
  subst hd'
  exact ⟨[], rfl, by simp⟩

/-! ### `parseTemplate` -/

theorem parseStep_stay :
    ∀ (lines : List (List Char)),
      (∀ l ∈ lines, trimList l ≠ "---".data) →
      lines.foldl parseStep (0, [], [], []) = (0, [], [], []) := by
  intro lines
  induction lines with
  | nil => intro _; rfl
  | cons l rest ih =>
    intro h
    rw [List.foldl_cons]
    have hstep : parseStep (0, [], [], []) l = (0, [], [], []) := by
      simp [parseStep, h l (List.mem_cons_self _ _)]
    rw [hstep]
    exact ih (fun l' hl' => h l' (List.mem_cons_of_mem _ hl'))

/-- C10: `parseTemplate` is tolerant of missing structure: on any input
containing no `---` delimiter line (after per-line trimming) it succeeds
and returns a Template with empty title, empty nickname and an empty
word set — it never reports a malformed template; an error arises only
from the modelled line-scanner failure (a line overflowing the 64KiB
token buffer). -/
theorem parseTemplate_tolerant :
    ∀ (content : List Char),
      (∀ l ∈ scanLines content, trimList l ≠ "---".data) →
      (scannerOk content = true → parseTemplate content = .ok ⟨"", "", []⟩) ∧
      (scannerOk content = false → parseTemplate content = .error ()) := by
  intro content h
  constructor
  · intro hok
    rw [parseTemplate, if_pos hok, parseStep_stay (scanLines content) h]
    rfl
  · intro hbad
    rw [parseTemplate, if_neg (by rw [hbad]; exact Bool.false_ne_true)]

theorem parseTemplate_tolerant_witness :
    ((∀ l ∈ scanLines ("no front matter\njust text".data), trimList l ≠ "---".data) ∧
      scannerOk ("no front matter\njust text".data) = true) ∧
    parseTemplate ("no front matter\njust text".data) = .ok ⟨"", "", []⟩ :=
  ⟨⟨by decide, by decide⟩,
   (parseTemplate_tolerant ("no front matter\njust text".data) (by decide)).1 (by decide)⟩

/-! ### The prefix trie of `longestCommonPrefix` -/

theorem splitChar_ne_nil (sep : Char) : ∀ (l : List Char), splitChar sep l ≠ [] := by
  intro l
  induction l with
  | nil => exact List.cons_ne_nil _ _
  | cons c cs ih =>
    rw [splitChar]
    by_cases hc : c = sep
    · rw [if_pos hc]
      exact List.cons_ne_nil _ _
    · rw [if_neg hc]
      cases h : splitChar sep cs with
      | nil => exact absurd h ih
      | cons x xs => exact List.cons_ne_nil _ _

theorem segsOf_ne_nil (s : String) : segsOf s ≠ [] :=
  splitChar_ne_nil (Char.ofNat 47) s.data

theorem walk_single (nm : List Char) (c : Node) :
    walk (Node.mk [(nm, c)]) = nm :: walk c := rfl

theorem lookup_some_mem_keys {α β : Type} [BEq α] [LawfulBEq α] {cs : List (α × β)}
    {p : α} {c : β} (h : cs.lookup p = some c) : p ∈ cs.map Prod.fst := by
  induction cs with
  | nil => simp [List.lookup] at h
  | cons e cs ih =>
    obtain ⟨k, v⟩ := e
    rw [List.lookup] at h
    cases hpk : p == k with
    | true =>
      have : p = k := eq_of_beq hpk
      simp [this]
    | false =>
      rw [hpk] at h
      exact List.mem_cons_of_mem _ (ih h)

/-- Inserting a word never removes trie children. -/
theorem mem_keys_insertWord {n : Node} {s : List Char}
    (h : s ∈ n.children.map Prod.fst) (w : List (List Char)) :
    s ∈ (insertWord n w).children.map Prod.fst := by
  match n, w with
  | .mk cs, [] => exact h
  | .mk cs, p :: ps =>
    rw [insertWord]
    cases hl : cs.lookup p with
    | some c =>
      have hkeys : (cs.map fun q => if q.1 = p then (p, insertWord c ps) else q).map Prod.fst
          = cs.map Prod.fst := by
        rw [List.map_map]
        refine List.map_congr_left ?_
        intro q _
        by_cases hq : q.1 = p
        · simp [hq]
        · simp [hq]
      show s ∈ (Node.mk _).children.map Prod.fst
      rw [Node.children, hkeys]
      exact h
    | none =>
      show s ∈ (Node.mk _).children.map Prod.fst
      rw [Node.children, List.map_append]
      exact List.mem_append_left _ h

/-- After inserting a word its first segment is a child of the root. -/
theorem head_mem_keys_insertWord (n : Node) (p : List Char) (ps : List (List Char)) :
    p ∈ (insertWord n (p :: ps)).children.map Prod.fst := by
  match n with
  | .mk cs =>
    rw [insertWord]
    cases hl : cs.lookup p with
    | some c =>
      have hkeys : (cs.map fun q => if q.1 = p then (p, insertWord c ps) else q).map Prod.fst
          = cs.map Prod.fst := by
        rw [List.map_map]
        refine List.map_congr_left ?_
        intro q _
        by_cases hq : q.1 = p
        · simp [hq]
        · simp [hq]
      show p ∈ (Node.mk _).children.map Prod.fst
      rw [Node.children, hkeys]
      exact lookup_some_mem_keys hl
    | none =>
      show p ∈ (Node.mk _).children.map Prod.fst
      rw [Node.children, List.map_append]
      exact List.mem_append_right _ (by simp)

theorem mem_keys_foldl_insertWord {s : List Char} :
    ∀ (ws : List (List (List Char))) (n : Node),
      s ∈ n.children.map Prod.fst →
      s ∈ ((ws.foldl insertWord n).children.map Prod.fst) := by
  intro ws
  induction ws with
  | nil => intro n h; exact h
  | cons w ws ih =>
    intro n h
    rw [List.foldl_cons]
    exact ih _ (mem_keys_insertWord h w)

theorem head_mem_keys_buildTrie {p : List Char} {ps : List (List Char)} :
    ∀ (ws : List (List (List Char))) (n : Node), (p :: ps) ∈ ws →
      p ∈ ((ws.foldl insertWord n).children.map Prod.fst) := by
  intro ws
  induction ws with
  | nil =>
    intro n h
    exact absurd h (List.not_mem_nil _)
  | cons w ws ih =>
    intro n h
    rw [List.foldl_cons]
    rcases List.mem_cons.mp h with h1 | h1
    · subst h1
      exact mem_keys_foldl_insertWord ws _ (head_mem_keys_insertWord n p ps)
    · exact ih _ h1

/-- A node with two distinct children (or none) walks to the empty
prefix. -/
theorem walk_eq_nil_of_two_keys {n : Node} {s₁ s₂ : List Char}
    (h₁ : s₁ ∈ n.children.map Prod.fst) (h₂ : s₂ ∈ n.children.map Prod.fst)
    (hne : s₁ ≠ s₂) : walk n = [] := by
  obtain ⟨cs⟩ := n
  cases cs with
  | nil => simp [Node.children] at h₁
  | cons e rest =>
    cases rest with
    | nil =>
      simp only [Node.children, List.map_cons, List.map_nil, List.mem_singleton] at h₁ h₂
      exact absurd (h₁.trans h₂.symm) hne
    | cons e₂ rest₂ => rfl

/-- When every word starts with segment `s`, folding them into a root
with the single child `s` keeps that single child and pushes the
non-empty tails into the subtree. -/
theorem foldl_insertWord_single (s : List Char) :
    ∀ (ws : List (List (List Char))) (c : Node),
      (∀ w ∈ ws, ∃ t, w = s :: t) →
      ws.foldl insertWord (Node.mk [(s, c)]) =
        Node.mk [(s, (tailsNE ws).foldl insertWord c)] := by
  intro ws
  induction ws with
  | nil => intro c _; rfl
  | cons w ws ih =>
    intro c h
    obtain ⟨t, rfl⟩ := h w (List.mem_cons_self _ _)
    rw [List.foldl_cons]
    have hstep : insertWord (Node.mk [(s, c)]) (s :: t) = Node.mk [(s, insertWord c t)] := by
      rw [insertWord]
      simp [List.lookup]
    rw [hstep]
    cases t with
    | nil =>
      rw [show insertWord c [] = c from by cases c; rfl]
      rw [ih c (fun w hw => h w (List.mem_cons_of_mem _ hw))]
      simp [tailsNE, List.filterMap_cons]
    | cons u us =>
      rw [ih (insertWord c (u :: us)) (fun w hw => h w (List.mem_cons_of_mem _ hw))]
      simp [tailsNE, List.filterMap_cons]

theorem buildTrie_all_same_head (s : List Char) (ws : List (List (List Char)))
    (hne : ws ≠ []) (h : ∀ w ∈ ws, ∃ t, w = s :: t) :
    buildTrie ws = Node.mk [(s, buildTrie (tailsNE ws))] := by
  match ws with
  | [] => exact absurd rfl hne
  | w :: rest =>
    obtain ⟨t, rfl⟩ := h w (List.mem_cons_self _ _)
    rw [buildTrie, List.foldl_cons]
    have h0 : insertWord (Node.mk []) (s :: t) = Node.mk [(s, insertWord (Node.mk []) t)] := by
      rw [insertWord]
      simp [List.lookup]
    rw [h0, foldl_insertWord_single s rest _ (fun w hw => h w (List.mem_cons_of_mem _ hw))]
    cases t with
    | nil =>
      rw [show insertWord (Node.mk []) [] = Node.mk [] from rfl]
      simp [tailsNE, List.filterMap_cons, buildTrie]
    | cons u us =>
      simp [tailsNE, List.filterMap_cons, buildTrie, List.foldl_cons]

/-! ### The deepest-common-prefix specification function -/

theorem lcpPair_prefix_left : ∀ (a b : List (List Char)), lcpPair a b <+: a := by
  intro a
  induction a with
  | nil => intro b; cases b <;> exact List.nil_prefix
  | cons x as ih =>
    intro b
    cases b with
    | nil => exact List.nil_prefix
    | cons y bs =>
      rw [lcpPair]
      by_cases hxy : x = y
      · rw [if_pos hxy]
        exact (List.cons_prefix_cons).mpr ⟨rfl, ih bs⟩
      · rw [if_neg hxy]
        exact List.nil_prefix

theorem lcpPair_prefix_right : ∀ (a b : List (List Char)), lcpPair a b <+: b := by
  intro a
  induction a with
  | nil => intro b; cases b <;> exact List.nil_prefix
  | cons x as ih =>
    intro b
    cases b with
    | nil => exact List.nil_prefix
    | cons y bs =>
      rw [lcpPair]
      by_cases hxy : x = y
      · rw [if_pos hxy]
        exact (List.cons_prefix_cons).mpr ⟨hxy, ih bs⟩
      · rw [if_neg hxy]
        exact List.nil_prefix

theorem foldl_lcpPair_prefix_start :
    ∀ (rest : List (List (List Char))) (x : List (List Char)),
      rest.foldl lcpPair x <+: x := by
  intro rest
  induction rest with
  | nil => intro x; exact List.prefix_refl x
  | cons w rest ih =>
    intro x
    rw [List.foldl_cons]
    exact (ih (lcpPair x w)).trans (lcpPair_prefix_left x w)

theorem foldl_lcpPair_prefix_mem :
    ∀ (rest : List (List (List Char))) (x w : List (List Char)), w ∈ rest →
      rest.foldl lcpPair x <+: w := by
  intro rest
  induction rest with
  | nil =>
    intro x w h
    exact absurd h (List.not_mem_nil w)
  | cons v rest ih =>
    intro x w h
    rw [List.foldl_cons]
    rcases List.mem_cons.mp h with h1 | h1
    · subst h1
      exact (foldl_lcpPair_prefix_start rest (lcpPair x w)).trans (lcpPair_prefix_right x w)
    · exact ih (lcpPair x v) w h1

theorem commonPrefixSpec_prefix_mem {ws : List (List (List Char))} {w : List (List Char)}
    (h : w ∈ ws) : commonPrefixSpec ws <+: w := by
  match ws with
  | [] => exact absurd h (List.not_mem_nil w)
  | v :: rest =>
    rw [commonPrefixSpec]
    rcases List.mem_cons.mp h with h1 | h1
    · subst h1
      exact foldl_lcpPair_prefix_start rest w
    · exact foldl_lcpPair_prefix_mem rest v w h1

theorem commonPrefixSpec_nil_of_heads_differ {ws : List (List (List Char))}
    {h₁ h₂ : List Char} {t₁ t₂ : List (List Char)}
    (hm₁ : h₁ :: t₁ ∈ ws) (hm₂ : h₂ :: t₂ ∈ ws) (hne : h₁ ≠ h₂) :
    commonPrefixSpec ws = [] := by
  cases hP : commonPrefixSpec ws with
  | nil => rfl
  | cons c cs =>
    exfalso
    have p₁ := hP ▸ commonPrefixSpec_prefix_mem hm₁
    have p₂ := hP ▸ commonPrefixSpec_prefix_mem hm₂
    rw [List.cons_prefix_cons] at p₁ p₂
    exact hne (p₁.1.symm.trans p₂.1)

theorem foldl_lcpPair_cons_heads (s : List Char) :
    ∀ (rest : List (List (List Char))) (t : List (List Char)),
      (∀ w ∈ rest, ∃ u, w = s :: u) →
      rest.foldl lcpPair (s :: t) = s :: rest.foldl (fun acc w => lcpPair acc w.tail) t := by
  intro rest
  induction rest with
  | nil => intro t _; rfl
  | cons w rest ih =>
    intro t h
    obtain ⟨u, rfl⟩ := h w (List.mem_cons_self _ _)
    rw [List.foldl_cons, List.foldl_cons]
    rw [show lcpPair (s :: t) (s :: u) = s :: lcpPair t u from by rw [lcpPair, if_pos rfl]]
    exact ih (lcpPair t u) (fun w hw => h w (List.mem_cons_of_mem _ hw))

theorem commonPrefixSpec_cons_heads (s : List Char) :
    ∀ (ws : List (List (List Char))), ws ≠ [] → (∀ w ∈ ws, ∃ t, w = s :: t) →
      commonPrefixSpec ws = s :: commonPrefixSpec (ws.map List.tail) := by
  intro ws hne h
  match ws with
  | [] => exact absurd rfl hne
  | w :: rest =>
    obtain ⟨t, rfl⟩ := h w (List.mem_cons_self _ _)
    rw [commonPrefixSpec, foldl_lcpPair_cons_heads s rest t
      (fun w hw => h w (List.mem_cons_of_mem _ hw))]
    rw [List.map_cons, commonPrefixSpec]
    congr 1
    show rest.foldl (fun acc w => lcpPair acc w.tail) ((s :: t).tail)
      = (rest.map List.tail).foldl lcpPair ((s :: t).tail)
    rw [List.foldl_map]

theorem lcpPair_nil_left (b : List (List Char)) : lcpPair [] b = [] := by
  cases b <;> rfl

theorem foldl_lcpPair_nil : ∀ (rest : List (List (List Char))),
    rest.foldl lcpPair [] = [] := by
  intro rest
  induction rest with
  | nil => rfl
  | cons w rest ih =>
    rw [List.foldl_cons, lcpPair_nil_left]
    exact ih

theorem tailsNE_eq_map_tail :
    ∀ (ws : List (List (List Char))),
      (∀ w ∈ ws, ∃ x u us, w = x :: u :: us) → tailsNE ws = ws.map List.tail := by
  intro ws
  induction ws with
  | nil => intro _; rfl
  | cons w ws ih =>
    intro h
    obtain ⟨x, u, us, rfl⟩ := h w (List.mem_cons_self _ _)
    have ih' := ih (fun w hw => h w (List.mem_cons_of_mem _ hw))
    rw [tailsNE] at ih'
    simp only [tailsNE, List.filterMap_cons, List.map_cons, List.tail_cons]
    exact congrArg (List.cons (u :: us)) ih' 

/-- The central trie lemma: for a non-empty family of non-empty segment
lists in which no word is a proper prefix of another, the unique-child
walk of the trie computes exactly the deepest common prefix. -/
theorem walk_buildTrie_bounded :
    ∀ (n : Nat) (ws : List (List (List Char))),
      (∀ w ∈ ws, w.length ≤ n) →
      ws ≠ [] → (∀ w ∈ ws, w ≠ []) →
      (∀ w ∈ ws, ∀ w' ∈ ws, w <+: w' → w = w') →
      walk (buildTrie ws) = commonPrefixSpec ws := by
  intro n
  induction n with
  | zero =>
    intro ws hlen hne hnn _
    exfalso
    match ws with
    | [] => exact hne rfl
    | w :: _ =>
      exact hnn w (List.mem_cons_self _ _)
        (List.length_eq_zero.mp (Nat.le_zero.mp (hlen w (List.mem_cons_self _ _))))
  | succ k ih =>
    intro ws hlen hne hnn hpp
    match ws with
    | [] => exact absurd rfl hne
    | w₀ :: rest =>
      obtain ⟨s, t₀, rfl⟩ : ∃ s t, w₀ = s :: t := by
        cases w₀ with
        | nil => exact absurd rfl (hnn _ (List.mem_cons_self _ _))
        | cons s t => exact ⟨s, t, rfl⟩
      by_cases hall : ∀ w ∈ (s :: t₀) :: rest, ∃ t, w = s :: t
      · rw [buildTrie_all_same_head s _ (List.cons_ne_nil _ _) hall, walk_single]
        by_cases hex : ∃ w ∈ (s :: t₀) :: rest, w = [s]
        · have halls : ∀ w ∈ (s :: t₀) :: rest, w = [s] := by
            obtain ⟨w1, hw1, hw1s⟩ := hex
            intro w hw
            obtain ⟨t, rfl⟩ := hall w hw
            have hpre : w1 <+: s :: t := by
              rw [hw1s]
              exact (List.cons_prefix_cons).mpr ⟨rfl, List.nil_prefix⟩
            have heq := hpp w1 hw1 (s :: t) hw hpre
            rw [hw1s] at heq
            exact heq.symm
          have htn : tailsNE ((s :: t₀) :: rest) = [] := by
            rw [tailsNE, List.filterMap_eq_nil_iff]
            intro w hw
            rw [halls w hw]
          rw [htn]
          rw [show walk (buildTrie []) = [] from rfl]
          rw [commonPrefixSpec_cons_heads s _ (List.cons_ne_nil _ _) hall]
          congr 1
          have hmap : ((s :: t₀) :: rest).map List.tail = [] :: rest.map List.tail := by
            rw [List.map_cons]
            congr 1
            rw [show (s :: t₀).tail = t₀ from rfl]
            have := halls (s :: t₀) (List.mem_cons_self _ _)
            injection this with _ h2
          rw [hmap, commonPrefixSpec, foldl_lcpPair_nil]
        · have htails : ∀ w ∈ (s :: t₀) :: rest, ∃ x u us, w = x :: u :: us := by
            intro w hw
            obtain ⟨t, rfl⟩ := hall w hw
            cases t with
            | nil => exact absurd ⟨s :: [], hw, rfl⟩ hex
            | cons u us => exact ⟨s, u, us, rfl⟩
          rw [tailsNE_eq_map_tail _ htails]
          rw [ih (((s :: t₀) :: rest).map List.tail) ?_ ?_ ?_ ?_]
          · rw [commonPrefixSpec_cons_heads s _ (List.cons_ne_nil _ _) hall]
          · intro w hw
            obtain ⟨v, hv, rfl⟩ := List.mem_map.mp hw
            have hlv := hlen v hv
            obtain ⟨x, u, us, hxu⟩ := htails v hv
            subst hxu
            simp only [List.tail_cons, List.length_cons] at hlv ⊢
            omega
          · simp
          · intro w hw
            obtain ⟨v, hv, rfl⟩ := List.mem_map.mp hw
            obtain ⟨x, u, us, hxu⟩ := htails v hv
            subst hxu
            simp
          · intro w hw w' hw' hpre
            obtain ⟨v, hv, rfl⟩ := List.mem_map.mp hw
            obtain ⟨v', hv', rfl⟩ := List.mem_map.mp hw'
            obtain ⟨tx, htx⟩ := hall v hv
            obtain ⟨tx', htx'⟩ := hall v' hv'
            subst htx
            subst htx'
            simp only [List.tail_cons] at hpre ⊢
            have hfull : (s :: tx) <+: (s :: tx') :=
              (List.cons_prefix_cons).mpr ⟨rfl, hpre⟩
            have heq := hpp _ hv _ hv' hfull
            exact (List.cons.inj heq).2
      · push_neg at hall
        obtain ⟨w, hw, hwne⟩ := hall
        obtain ⟨h1, t1, rfl⟩ : ∃ x t, w = x :: t := by
          cases w with
          | nil => exact absurd rfl (hnn _ hw)
          | cons x t => exact ⟨x, t, rfl⟩
        have hne1 : s ≠ h1 := by
          intro hc
          exact hwne t1 (by rw [hc])
        have hk1 : s ∈ ((buildTrie ((s :: t₀) :: rest)).children.map Prod.fst) := by
          rw [buildTrie]
          exact head_mem_keys_buildTrie _ _ (List.mem_cons_self _ _)
        have hk2 : h1 ∈ ((buildTrie ((s :: t₀) :: rest)).children.map Prod.fst) := by
          rw [buildTrie]
          exact head_mem_keys_buildTrie _ _ hw
        rw [walk_eq_nil_of_two_keys hk1 hk2 hne1]
        rw [commonPrefixSpec_nil_of_heads_differ (List.mem_cons_self _ _) hw hne1]

theorem walk_buildTrie (ws : List (List (List Char))) (hne : ws ≠ [])
    (hnn : ∀ w ∈ ws, w ≠ []) (hpp : ∀ w ∈ ws, ∀ w' ∈ ws, w <+: w' → w = w') :
    walk (buildTrie ws) = commonPrefixSpec ws := by
  have hbound : ∀ w ∈ ws, w.length ≤ (ws.map List.length).foldr max 0 := by
    intro w hw
    have : w.length ∈ ws.map List.length := List.mem_map_of_mem List.length hw
    exact List.le_max_of_le (by exact this) (le_refl _)
  exact walk_buildTrie_bounded _ ws hbound hne hnn hpp

/-! ### `longestCommonPrefix` against the specification -/

theorem longestCommonPrefix_eq_spec (part : List License) (hne : part ≠ [])
    (hpp : ∀ l ∈ part, ∀ l' ∈ part,
      segsOf l.package <+: segsOf l'.package → segsOf l.package = segsOf l'.package) :
    longestCommonPrefix part =
      String.mk (List.intercalate ([Char.ofNat 47])
        (commonPrefixSpec (part.map (fun l => segsOf l.package)))) := by
  simp only [longestCommonPrefix]
  rw [walk_buildTrie (part.map fun l => segsOf l.package) ?_ ?_ ?_]
  · simp [hne]
  · intro w hw
    obtain ⟨l, _, rfl⟩ := List.mem_map.mp hw
    exact segsOf_ne_nil _
  · intro w hw w' hw' hpre
    obtain ⟨l, hl, rfl⟩ := List.mem_map.mp hw
    obtain ⟨l', hl', rfl⟩ := List.mem_map.mp hw'
    exact hpp l hl l' hl' hpre

/-- The words of a good partition all start with the same non-empty first
segment, so the common prefix is a cons with a non-empty head. -/
theorem commonPrefixSpec_of_goodPartition {part : List License} (hne : part ≠ [])
    (hgood : goodPartition part) :
    ∃ s t, commonPrefixSpec (part.map (fun l => segsOf l.package)) = s :: t ∧ s ≠ [] := by
  match part with
  | l₀ :: rest =>
    obtain ⟨s, r₀, hseg⟩ : ∃ s r, segsOf l₀.package = s :: r := by
      cases hs : segsOf l₀.package with
      | nil => exact absurd hs (segsOf_ne_nil _)
      | cons s r => exact ⟨s, r, rfl⟩
    have hall : ∀ w ∈ (l₀ :: rest).map (fun l => segsOf l.package), ∃ t, w = s :: t := by
      intro w hw
      obtain ⟨l, hl, rfl⟩ := List.mem_map.mp hw
      have hhead := hgood.2.1 l hl l₀ (List.mem_cons_self _ _)
      rw [hseg] at hhead
      cases hsl : segsOf l.package with
      | nil => exact absurd hsl (segsOf_ne_nil _)
      | cons a t =>
        rw [hsl] at hhead
        simp only [List.head?_cons, Option.some.injEq] at hhead
        exact ⟨t, by rw [hhead]⟩
    refine ⟨s, _, commonPrefixSpec_cons_heads s _ (by simp) hall, ?_⟩
    refine hgood.2.2 l₀ (List.mem_cons_self _ _) s ?_
    rw [hseg]
    rfl

theorem intercalate_cons_append (sep s : List Char) (t : List (List Char)) :
    ∃ X, List.intercalate sep (s :: t) = s ++ X := by
  cases t with
  | nil => exact ⟨[], rfl⟩
  | cons y ys => exact ⟨sep ++ List.intercalate sep (y :: ys), rfl⟩

theorem mk_intercalate_ne_empty (sep s : List Char) (t : List (List Char)) (hs : s ≠ []) :
    String.mk (List.intercalate sep (s :: t)) ≠ "" := by
  intro heq
  obtain ⟨X, hX⟩ := intercalate_cons_append sep s t
  have hdata : List.intercalate sep (s :: t) = [] := by
    have := congrArg String.data heq
    simpa using this
  rw [hX] at hdata
  exact hs (List.append_eq_nil.mp hdata).1

theorem mergeEntry_nil (k : String) : mergeEntry (k, []) = .ok (k, []) := rfl

theorem mergeEntry_single (k : String) (x : License) :
    mergeEntry (k, [x]) = .ok (k, [x]) := rfl

theorem mergeEntry_cons₂ (k : String) (v0 v1 : License) (vrest : List License) :
    mergeEntry (k, v0 :: v1 :: vrest) =
      if longestCommonPrefix (v0 :: v1 :: vrest) = ""
      then .error ("packages share the same license but not common prefix")
      else .ok (k, [⟨longestCommonPrefix (v0 :: v1 :: vrest),
        v0.score, v0.template, v0.path, v0.err, v0.extraWords, v0.missingWords⟩]) := rfl

/-- `mergeEntry` on a good partition of two or more rows: the partition
collapses to its first row relabelled with the deepest common prefix. -/
theorem mergeEntry_of_good (k : String) (v0 v1 : License) (vrest : List License)
    (hgood : goodPartition (v0 :: v1 :: vrest)) :
    mergeEntry (k, v0 :: v1 :: vrest) =
      .ok (k, [⟨String.mk (List.intercalate ([Char.ofNat 47])
            (commonPrefixSpec ((v0 :: v1 :: vrest).map (fun l => segsOf l.package)))),
          v0.score, v0.template, v0.path, v0.err, v0.extraWords, v0.missingWords⟩]) := by
  rw [mergeEntry_cons₂]
  rw [longestCommonPrefix_eq_spec (v0 :: v1 :: vrest) (by simp) hgood.1]
  obtain ⟨s, t, hP, hs⟩ := commonPrefixSpec_of_goodPartition (by simp) hgood
  rw [hP]
  rw [if_neg (mk_intercalate_ne_empty _ s t hs)]

theorem mergeEntry_key {e r : String × List License} (h : mergeEntry e = .ok r) :
    r.1 = e.1 := by
  obtain ⟨k, v⟩ := e
  match v with
  | [] =>
    rw [mergeEntry_nil] at h
    rw [← Except.ok.inj h]
  | [x] =>
    rw [mergeEntry_single] at h
    rw [← Except.ok.inj h]
  | v0 :: v1 :: vrest =>
    rw [mergeEntry_cons₂] at h
    by_cases hpre : longestCommonPrefix (v0 :: v1 :: vrest) = ""
    · rw [if_pos hpre] at h
      cases h
    · rw [if_neg hpre] at h
      rw [← Except.ok.inj h]

theorem mergeEntry_values_path {e r : String × List License}
    (hv : ∀ x ∈ e.2, x.path = e.1) (h : mergeEntry e = .ok r) :
    ∀ x ∈ r.2, x.path = r.1 := by
  obtain ⟨k, v⟩ := e
  match v with
  | [] =>
    rw [mergeEntry_nil] at h
    rw [← Except.ok.inj h]
    exact hv
  | [x] =>
    rw [mergeEntry_single] at h
    rw [← Except.ok.inj h]
    exact hv
  | v0 :: v1 :: vrest =>
    rw [mergeEntry_cons₂] at h
    by_cases hpre : longestCommonPrefix (v0 :: v1 :: vrest) = ""
    · rw [if_pos hpre] at h
      cases h
    · rw [if_neg hpre] at h
      rw [← Except.ok.inj h]
      intro x hx
      simp only [List.mem_singleton] at hx
      subst hx
      exact hv v0 (List.mem_cons_self _ _)

theorem mergeAll_ok :
    ∀ (m : List (String × List License)),
      (∀ e ∈ m, ∃ r, mergeEntry e = .ok r) →
      ∃ m', mergeAll m = .ok m' ∧
        List.Forall₂ (fun e r => mergeEntry e = .ok r) m m' := by
  intro m
  induction m with
  | nil => intro _; exact ⟨[], rfl, List.Forall₂.nil⟩
  | cons e m ih =>
    intro h
    obtain ⟨r, hr⟩ := h e (List.mem_cons_self _ _)
    obtain ⟨m', hm', hf⟩ := ih (fun e' he' => h e' (List.mem_cons_of_mem _ he'))
    refine ⟨r :: m', ?_, List.Forall₂.cons hr hf⟩
    rw [mergeAll, hr, hm']

theorem forall₂_mergeEntry_lookup :
    ∀ {m m' : List (String × List License)},
      List.Forall₂ (fun e r => mergeEntry e = .ok r) m m' →
      ∀ (k : String) (v : List License), m.lookup k = some v →
        ∃ v', m'.lookup k = some v' ∧ mergeEntry (k, v) = .ok (k, v') := by
  intro m m' hf
  induction hf with
  | nil =>
    intro k v h
    simp [List.lookup] at h
  | cons hrel hf ih =>
    rename_i e r tl tl'
    intro k v h
    obtain ⟨k1, v1⟩ := e
    obtain ⟨k1', v1'⟩ := r
    have hkey : k1' = k1 := mergeEntry_key hrel
    rw [List.lookup] at h
    cases hbeq : k == k1 with
    | true =>
      rw [hbeq] at h
      have hv : v = v1 := (Option.some.inj h).symm
      have hkk : k = k1 := eq_of_beq hbeq
      refine ⟨v1', ?_, ?_⟩
      · rw [List.lookup, show (k == k1') = true from by rw [hkey]; exact hbeq]
      · rw [hv, hkk]
        rw [hkey] at hrel
        exact hrel
    | false =>
      rw [hbeq] at h
      obtain ⟨v', hv', hme⟩ := ih k v h
      refine ⟨v', ?_, hme⟩
      rw [List.lookup, show (k == k1') = false from by rw [hkey]; exact hbeq]
      exact hv'

/-! ### Association-list lemmas for `upsert`, `removeKey`, `buildPaths` -/

theorem keys_ne_of_lookup_none :
    ∀ {m : List (String × List License)} {k : String},
      m.lookup k = none → ∀ e ∈ m, e.1 ≠ k := by
  intro m
  induction m with
  | nil =>
    intro k _ e he
    exact absurd he (List.not_mem_nil e)
  | cons e0 m ih =>
    intro k h e he
    obtain ⟨k1, v1⟩ := e0
    rw [List.lookup] at h
    cases hbeq : k == k1 with
    | true =>
      rw [hbeq] at h
      exact Option.noConfusion h
    | false =>
      rw [hbeq] at h
      rcases List.mem_cons.mp he with h1 | h1
      · rw [h1]
        exact Ne.symm (ne_of_beq_false hbeq)
      · exact ih h e h1

theorem lookup_map_upd_self (m : List (String × List License)) (k : String) (l : License)
    (v : List License) (hm : m.lookup k = some v) :
    (m.map (fun e => if e.1 = k then (e.1, e.2 ++ [l]) else e)).lookup k = some (v ++ [l]) := by
  induction m with
  | nil =>
    rw [List.lookup] at hm
    exact Option.noConfusion hm
  | cons e m ih =>
    obtain ⟨k1, v1⟩ := e
    rw [List.lookup] at hm
    simp only [List.map_cons]
    cases hbeq : k == k1 with
    | true =>
      rw [hbeq] at hm
      have hv : v1 = v := Option.some.inj hm
      have hk : k1 = k := (eq_of_beq hbeq).symm
      rw [if_pos (by exact hk)]
      rw [List.lookup, hbeq, hv]
    | false =>
      rw [hbeq] at hm
      rw [if_neg (fun h => (ne_of_beq_false hbeq) (h.symm))]
      rw [List.lookup, hbeq]
      exact ih hm

theorem lookup_map_upd_other (m : List (String × List License)) (k : String) (l : License)
    (k' : String) (h : k' ≠ k) :
    (m.map (fun e => if e.1 = k then (e.1, e.2 ++ [l]) else e)).lookup k' = m.lookup k' := by
  induction m with
  | nil => rfl
  | cons e m ih =>
    obtain ⟨k1, v1⟩ := e
    simp only [List.map_cons]
    by_cases hk1 : k1 = k
    · rw [if_pos hk1]
      rw [List.lookup, List.lookup]
      have hbeq : (k' == k1) = false := beq_eq_false_iff_ne.mpr (by rw [hk1]; exact h)
      rw [hbeq]
      exact ih
    · rw [if_neg hk1]
      rw [List.lookup, List.lookup]
      cases hbeq : k' == k1 with
      | true => rfl
      | false => exact ih

theorem lookup_append_right_single (m : List (String × List License)) (k : String)
    (l : License) (hm : m.lookup k = none) :
    (m ++ [(k, [l])]).lookup k = some [l] := by
  induction m with
  | nil =>
    rw [List.nil_append, List.lookup, beq_self_eq_true]
  | cons e m ih =>
    obtain ⟨k1, v1⟩ := e
    rw [List.lookup] at hm
    rw [List.cons_append, List.lookup]
    cases hbeq : k == k1 with
    | true =>
      rw [hbeq] at hm
      exact Option.noConfusion hm
    | false =>
      rw [hbeq] at hm
      exact ih hm

theorem lookup_append_single_other (m : List (String × List License)) (k : String)
    (l : License) (k' : String) (h : k' ≠ k) :
    (m ++ [(k, [l])]).lookup k' = m.lookup k' := by
  induction m with
  | nil =>
    rw [List.nil_append, List.lookup, List.lookup, beq_eq_false_iff_ne.mpr h]
    rfl
  | cons e m ih =>
    obtain ⟨k1, v1⟩ := e
    rw [List.cons_append, List.lookup, List.lookup]
    cases hbeq : k' == k1 with
    | true => rfl
    | false => exact ih

theorem upsert_lookup_self (m : List (String × List License)) (k : String) (l : License) :
    (upsert m k l).lookup k = some ((m.lookup k).getD [] ++ [l]) := by
  cases hm : m.lookup k with
  | some v =>
    have hup : upsert m k l = m.map (fun e => if e.1 = k then (e.1, e.2 ++ [l]) else e) := by
      rw [upsert, hm]
    rw [hup]
    simp only [Option.getD_some]
    exact lookup_map_upd_self m k l v hm
  | none =>
    have hup : upsert m k l = m ++ [(k, [l])] := by rw [upsert, hm]
    rw [hup]
    simp only [Option.getD_none, List.nil_append]
    exact lookup_append_right_single m k l hm

theorem upsert_lookup_other (m : List (String × List License)) (k : String) (l : License)
    (k' : String) (h : k' ≠ k) :
    (upsert m k l).lookup k' = m.lookup k' := by
  cases hm : m.lookup k with
  | some v =>
    have hup : upsert m k l = m.map (fun e => if e.1 = k then (e.1, e.2 ++ [l]) else e) := by
      rw [upsert, hm]
    rw [hup]
    exact lookup_map_upd_other m k l k' h
  | none =>
    have hup : upsert m k l = m ++ [(k, [l])] := by rw [upsert, hm]
    rw [hup]
    exact lookup_append_single_other m k l k' h

theorem removeKey_lookup_self (m : List (String × List License)) (k : String) :
    (removeKey m k).lookup k = none := by
  simp only [removeKey]
  induction m with
  | nil => rfl
  | cons e m ih =>
    obtain ⟨k1, v1⟩ := e
    rw [List.filter_cons]
    cases hbeq : k1 == k with
    | true =>
      simp only [hbeq, Bool.not_true, Bool.false_eq_true, if_false]
      exact ih
    | false =>
      simp only [hbeq, Bool.not_false, if_true]
      rw [List.lookup, beq_eq_false_iff_ne.mpr (Ne.symm (ne_of_beq_false hbeq))]
      exact ih

theorem removeKey_lookup_other (m : List (String × List License)) (k k' : String)
    (h : k' ≠ k) :
    (removeKey m k).lookup k' = m.lookup k' := by
  simp only [removeKey]
  induction m with
  | nil => rfl
  | cons e m ih =>
    obtain ⟨k1, v1⟩ := e
    rw [List.filter_cons]
    cases hbeq : k1 == k with
    | true =>
      simp only [hbeq, Bool.not_true, Bool.false_eq_true, if_false]
      rw [List.lookup]
      have hk1 : k1 = k := eq_of_beq hbeq
      rw [beq_eq_false_iff_ne.mpr (by rw [hk1]; exact h)]
      exact ih
    | false =>
      simp only [hbeq, Bool.not_false, if_true]
      rw [List.lookup, List.lookup]
      cases hbeq2 : k' == k1 with
      | true => rfl
      | false => exact ih

theorem removeKey_subset (m : List (String × List License)) (k : String) :
    ∀ e ∈ removeKey m k, e ∈ m := by
  intro e he
  exact List.mem_of_mem_filter he

theorem partitionOf_append_self {l : License} {q : String} (h : (l.path == q) = true)
    (p : List License) :
    partitionOf (p ++ [l]) q = partitionOf p q ++ [l] := by
  simp [partitionOf, List.filter_append, h]

theorem partitionOf_append_other {l : License} {q : String} (h : (l.path == q) = false)
    (p : List License) :
    partitionOf (p ++ [l]) q = partitionOf p q := by
  simp [partitionOf, List.filter_append, h]

theorem buildPaths_fold_lookup :
    ∀ (ls : List License) (m : List (String × List License)) (k : String), k ≠ "" →
      ((ls.foldl (fun m l => if l.path = "" then m else upsert m l.path l) m).lookup k)
        = match m.lookup k with
          | some v => some (v ++ ls.filter (fun l => l.path == k))
          | none => if ls.filter (fun l => l.path == k) = [] then none
                    else some (ls.filter (fun l => l.path == k)) := by
  intro ls
  induction ls with
  | nil =>
    intro m k _
    rw [List.foldl_nil, List.filter_nil]
    cases hm : m.lookup k <;> simp
  | cons l ls ih =>
    intro m k hk
    rw [List.foldl_cons, List.filter_cons]
    by_cases hpath : l.path = ""
    · rw [if_pos hpath]
      have hlk : (l.path == k) = false :=
        beq_eq_false_iff_ne.mpr (fun h => hk (h.symm.trans hpath))
      simp only [hlk, Bool.false_eq_true, if_false]
      exact ih m k hk
    · rw [if_neg hpath]
      by_cases hlk : l.path = k
      · have hbk : (l.path == k) = true := by rw [hlk]; exact beq_self_eq_true k
        simp only [hbk, if_true]
        subst hlk
        rw [ih (upsert m l.path l) l.path hk]
        rw [upsert_lookup_self m l.path l]
        cases hm : m.lookup l.path with
        | some v => simp
        | none => simp
      · have hbk : (l.path == k) = false := beq_eq_false_iff_ne.mpr hlk
        simp only [hbk, Bool.false_eq_true, if_false]
        rw [ih (upsert m l.path l) k hk]
        rw [upsert_lookup_other m l.path l k (Ne.symm hlk)]

theorem buildPaths_lookup (ls : List License) (k : String) (hk : k ≠ "")
    (hne : partitionOf ls k ≠ []) :
    (buildPaths ls).lookup k = some (partitionOf ls k) := by
  rw [buildPaths, buildPaths_fold_lookup ls [] k hk]
  show (if ls.filter (fun l => l.path == k) = [] then none
        else some (ls.filter (fun l => l.path == k))) = some (partitionOf ls k)
  rw [if_neg (by simp only [partitionOf] at hne; exact hne)]
  rfl

theorem buildPaths_fold_entries :
    ∀ (ls processed : List License) (m : List (String × List License)),
      (∀ e ∈ m, e.1 ≠ "" ∧ e.2 = partitionOf processed e.1) →
      (∀ k, k ≠ "" → m.lookup k = none → partitionOf processed k = []) →
      ∀ e ∈ ls.foldl (fun m l => if l.path = "" then m else upsert m l.path l) m,
        e.1 ≠ "" ∧ e.2 = partitionOf (processed ++ ls) e.1 := by
  intro ls
  induction ls with
  | nil =>
    intro processed m h1 _ e he
    rw [List.foldl_nil] at he
    rw [List.append_nil]
    exact h1 e he
  | cons l ls ih =>
    intro processed m h1 h2 e he
    rw [List.foldl_cons] at he
    have happ : processed ++ l :: ls = (processed ++ [l]) ++ ls := by simp
    rw [happ]
    by_cases hpath : l.path = ""
    · rw [if_pos hpath] at he
      refine ih (processed ++ [l]) m ?_ ?_ e he
      · intro e' he'
        obtain ⟨hk, hv⟩ := h1 e' he'
        refine ⟨hk, ?_⟩
        rw [hv, partitionOf_append_other (beq_eq_false_iff_ne.mpr (fun h => hk (h.symm.trans hpath))) processed]
      · intro k hkne hnone
        rw [partitionOf_append_other (beq_eq_false_iff_ne.mpr (fun h => hkne (h.symm.trans hpath))) processed]
        exact h2 k hkne hnone
    · rw [if_neg hpath] at he
      refine ih (processed ++ [l]) (upsert m l.path l) ?_ ?_ e he
      · intro e' he'
        cases hm : m.lookup l.path with
        | some v =>
          have hup : upsert m l.path l
              = m.map (fun e => if e.1 = l.path then (e.1, e.2 ++ [l]) else e) := by
            rw [upsert, hm]
          rw [hup] at he'
          simp only [List.mem_map] at he'
          obtain ⟨e0, he0, rfl⟩ := he'
          obtain ⟨hk0, hv0⟩ := h1 e0 he0
          by_cases heq : e0.1 = l.path
          · rw [if_pos heq]
            refine ⟨hk0, ?_⟩
            show e0.2 ++ [l] = partitionOf (processed ++ [l]) e0.1
            rw [partitionOf_append_self (by rw [heq]; exact beq_self_eq_true l.path) processed]
            rw [hv0]
          · rw [if_neg heq]
            refine ⟨hk0, ?_⟩
            rw [partitionOf_append_other (beq_eq_false_iff_ne.mpr (fun h => heq h.symm)) processed]
            exact hv0
        | none =>
          have hup : upsert m l.path l = m ++ [(l.path, [l])] := by rw [upsert, hm]
          rw [hup] at he'
          rcases List.mem_append.mp he' with hmem | hmem
          · obtain ⟨hk0, hv0⟩ := h1 e' hmem
            have hne : e'.1 ≠ l.path := keys_ne_of_lookup_none hm e' hmem
            refine ⟨hk0, ?_⟩
            rw [partitionOf_append_other (beq_eq_false_iff_ne.mpr (fun h => hne h.symm)) processed]
            exact hv0
          · rw [List.mem_singleton] at hmem
            subst hmem
            refine ⟨hpath, ?_⟩
            show [l] = partitionOf (processed ++ [l]) l.path
            rw [partitionOf_append_self (beq_self_eq_true l.path) processed]
            rw [h2 l.path hpath hm]
            rfl
      · intro k hkne hnone
        by_cases hkl : k = l.path
        · rw [hkl, upsert_lookup_self m l.path l] at hnone
          exact Option.noConfusion hnone
        · rw [upsert_lookup_other m l.path l k hkl] at hnone
          rw [partitionOf_append_other (beq_eq_false_iff_ne.mpr (fun h => hkl h.symm)) processed]
          exact h2 k hkne hnone

theorem buildPaths_entries (ls : List License) :
    ∀ e ∈ buildPaths ls, e.1 ≠ "" ∧ e.2 = partitionOf ls e.1 := by
  intro e he
  rw [buildPaths] at he
  have h := buildPaths_fold_entries ls [] []
    (fun e' he' => absurd he' (List.not_mem_nil e'))
    (fun k _ _ => rfl) e he
  rwa [List.nil_append] at h

theorem lookup_some_mem_pair :
    ∀ {m : List (String × List License)} {k : String} {v : List License},
      m.lookup k = some v → (k, v) ∈ m := by
  intro m
  induction m with
  | nil =>
    intro k v h
    exact Option.noConfusion h
  | cons e m ih =>
    intro k v h
    obtain ⟨k1, v1⟩ := e
    rw [List.lookup] at h
    cases hbeq : k == k1 with
    | true =>
      rw [hbeq] at h
      have hv := Option.some.inj h
      have hk := eq_of_beq hbeq
      rw [hk, ← hv]
      exact List.mem_cons_self _ _
    | false =>
      rw [hbeq] at h
      exact List.mem_cons_of_mem _ (ih h)

/-- The output pass keeps the representative of every partition that has a
witness row in the input list. -/
theorem keepLoop_mem :
    ∀ (ls : List License) (m : List (String × List License)) (p : String)
      (v0 : License) (vrest : List License),
      p ≠ "" → (∃ l ∈ ls, l.path = p) → m.lookup p = some (v0 :: vrest) →
      v0 ∈ keepLoop ls m := by
  intro ls
  induction ls with
  | nil =>
    intro m p v0 vrest _ hex _
    obtain ⟨l, hl, _⟩ := hex
    exact absurd hl (List.not_mem_nil l)
  | cons l rest ih =>
    intro m p v0 vrest hp hex hlook
    rw [keepLoop]
    by_cases hlp : l.path = p
    · rw [if_neg (by rw [hlp]; exact hp)]
      rw [hlp, hlook]
      exact List.mem_cons_self _ _
    · obtain ⟨l', hl', hl'p⟩ := hex
      rcases List.mem_cons.mp hl' with h1 | h1
      · exact absurd (h1 ▸ hl'p) hlp
      · by_cases hle : l.path = ""
        · rw [if_pos hle]
          exact List.mem_cons_of_mem _ (ih m p v0 vrest hp ⟨l', h1, hl'p⟩ hlook)
        · rw [if_neg hle]
          cases hlk : m.lookup l.path with
          | none =>
            exact ih m p v0 vrest hp ⟨l', h1, hl'p⟩ hlook
          | some w =>
            cases w with
            | nil =>
              refine ih (removeKey m l.path) p v0 vrest hp ⟨l', h1, hl'p⟩ ?_
              rw [removeKey_lookup_other m l.path p (fun h => hlp h.symm)]
              exact hlook
            | cons w0 ws =>
              refine List.mem_cons_of_mem _
                (ih (removeKey m l.path) p v0 vrest hp ⟨l', h1, hl'p⟩ ?_)
              rw [removeKey_lookup_other m l.path p (fun h => hlp h.symm)]
              exact hlook

/-- Every pathful row emitted by the output pass is the head of its
partition's (merged) value in the map. -/
theorem keepLoop_lookup_of_mem :
    ∀ (ls : List License) (m : List (String × List License)),
      (∀ e ∈ m, ∀ x ∈ e.2, x.path = e.1) →
      ∀ r ∈ keepLoop ls m, r.path ≠ "" →
      ∃ rest', m.lookup r.path = some (r :: rest') := by
  intro ls
  induction ls with
  | nil =>
    intro m _ r hr _
    rw [keepLoop] at hr
    exact absurd hr (List.not_mem_nil r)
  | cons l rest ih =>
    intro m hm r hr hrne
    rw [keepLoop] at hr
    by_cases hle : l.path = ""
    · rw [if_pos hle] at hr
      rcases List.mem_cons.mp hr with h1 | h1
      · exact absurd hle (h1 ▸ hrne)
      · exact ih m hm r h1 hrne
    · rw [if_neg hle] at hr
      cases hlk : m.lookup l.path with
      | none =>
        rw [hlk] at hr
        exact ih m hm r hr hrne
      | some w =>
        cases w with
        | nil =>
          rw [hlk] at hr
          obtain ⟨rest', hrest⟩ :=
            ih (removeKey m l.path)
              (fun e he x hx => hm e (removeKey_subset m l.path e he) x hx) r hr hrne
          by_cases hrl : r.path = l.path
          · rw [hrl, removeKey_lookup_self] at hrest
            exact Option.noConfusion hrest
          · rw [removeKey_lookup_other m l.path r.path hrl] at hrest
            exact ⟨rest', hrest⟩
        | cons w0 ws =>
          rw [hlk] at hr
          rcases List.mem_cons.mp hr with h1 | h1
          · subst h1
            have hpair := lookup_some_mem_pair hlk
            have hw0 : r.path = l.path := hm _ hpair r (List.mem_cons_self _ _)
            refine ⟨ws, ?_⟩
            rw [hw0]
            exact hlk
          · obtain ⟨rest', hrest⟩ :=
              ih (removeKey m l.path)
                (fun e he x hx => hm e (removeKey_subset m l.path e he) x hx) r h1 hrne
            by_cases hrl : r.path = l.path
            · rw [hrl, removeKey_lookup_self] at hrest
              exact Option.noConfusion hrest
            · rw [removeKey_lookup_other m l.path r.path hrl] at hrest
              exact ⟨rest', hrest⟩

theorem mem_of_mem_partitionOf {ls : List License} {p : String} {l : License}
    (h : l ∈ partitionOf ls p) : l ∈ ls ∧ l.path = p :=
  ⟨(List.mem_filter.mp h).1, eq_of_beq (List.mem_filter.mp h).2⟩

theorem forall₂_mem_right :
    ∀ {m m' : List (String × List License)},
      List.Forall₂ (fun e r => mergeEntry e = .ok r) m m' →
      ∀ r ∈ m', ∃ e ∈ m, mergeEntry e = .ok r := by
  intro m m' hf
  induction hf with
  | nil =>
    intro r hr
    exact absurd hr (List.not_mem_nil r)
  | cons hrel hf ih =>
    intro r hr
    rcases List.mem_cons.mp hr with h1 | h1
    · exact ⟨_, List.mem_cons_self _ _, h1 ▸ hrel⟩
    · obtain ⟨e, he, hme⟩ := ih r h1
      exact ⟨e, List.mem_cons_of_mem _ he, hme⟩

/-- C3 (counterexample): grouping the packages `a` and `a/b`, which share
one license file, yields one row whose package identifier is `a/b` — the
trie walk keeps descending below the end of the shorter import path while
exactly one child exists, so the identifier is neither the deepest common
segment prefix (which is `a`) nor a prefix of every member's import path. -/
theorem groupLicenses_common_prefix_cex :
    groupLicenses
        [⟨"a", 1, none, "L", "", [], []⟩, ⟨"a/b", 1, none, "L", "", [], []⟩]
      = .ok [⟨"a/b", 1, none, "L", "", [], []⟩] ∧
    commonPrefixSpec
        (([⟨"a", 1, none, "L", "", [], []⟩,
           ⟨"a/b", 1, none, "L", "", [], []⟩] : List License).map
          (fun l => segsOf l.package)) = segsOf "a" ∧
    ¬(segsOf "a/b" <+: segsOf "a") :=
  ⟨rfl, rfl, by decide⟩

/-- C3 (amended): for every row list whose non-empty-path partitions of
two or more rows contain no import path that is a proper segment-prefix
of another and share a non-empty first segment, `groupLicenses` succeeds
and replaces each such partition by exactly one row: its first row with
the package identifier replaced by the deepest common `/`-segment prefix
of the partition's import paths, which is then a segment-prefix of every
member's import path.  (Without the proper-prefix side condition the
identifier can overshoot the common prefix, per the counterexample.) -/
theorem groupLicenses_common_prefix (ls : List License)
    (hgood : ∀ p : String, p ≠ "" → 2 ≤ (partitionOf ls p).length →
      goodPartition (partitionOf ls p)) :
    ∃ res, groupLicenses ls = .ok res ∧
      ∀ p : String, p ≠ "" → 2 ≤ (partitionOf ls p).length →
        ∃ v0 vrest row,
          partitionOf ls p = v0 :: vrest ∧
          row = ⟨String.mk (List.intercalate ([Char.ofNat 47])
              (commonPrefixSpec ((partitionOf ls p).map (fun l => segsOf l.package)))),
            v0.score, v0.template, v0.path, v0.err, v0.extraWords, v0.missingWords⟩ ∧
          row ∈ res ∧
          (∀ r ∈ res, r.path = p → r = row) ∧
          (∀ l ∈ partitionOf ls p,
            commonPrefixSpec ((partitionOf ls p).map (fun l => segsOf l.package)) <+:
              segsOf l.package) := by
  have hentries := buildPaths_entries ls
  have hok : ∀ e ∈ buildPaths ls, ∃ r, mergeEntry e = .ok r := by
    intro e he
    obtain ⟨hke, hve⟩ := hentries e he
    obtain ⟨k, v⟩ := e
    have hke' : k ≠ "" := hke
    have hve' : v = partitionOf ls k := hve
    match v, hve' with
    | [], _ => exact ⟨(k, []), mergeEntry_nil k⟩
    | [x], _ => exact ⟨(k, [x]), mergeEntry_single k x⟩
    | v0 :: v1 :: vrest, hve' =>
      have hg : goodPartition (v0 :: v1 :: vrest) := by
        rw [hve']
        exact hgood k hke' (by rw [← hve']; simp only [List.length_cons]; omega)
      exact ⟨_, mergeEntry_of_good k v0 v1 vrest hg⟩
  obtain ⟨m', hm', hf⟩ := mergeAll_ok (buildPaths ls) hok
  have hres : groupLicenses ls = .ok (keepLoop ls m') := by
    rw [groupLicenses, hm']
  have hm'paths : ∀ e ∈ m', ∀ x ∈ e.2, x.path = e.1 := by
    intro e' he' x hx
    obtain ⟨e, he, hme⟩ := forall₂_mem_right hf e' he'
    obtain ⟨hke, hve⟩ := hentries e he
    refine mergeEntry_values_path ?_ hme x hx
    intro y hy
    rw [hve] at hy
    exact (mem_of_mem_partitionOf hy).2
  refine ⟨keepLoop ls m', hres, ?_⟩
  intro p hp h2
  obtain ⟨v0, v1, vrest, hpart⟩ : ∃ v0 v1 vrest, partitionOf ls p = v0 :: v1 :: vrest := by
    cases hc : partitionOf ls p with
    | nil =>
      rw [hc] at h2
      simp at h2
    | cons a t =>
      cases t with
      | nil =>
        rw [hc] at h2
        simp at h2
      | cons b t' => exact ⟨a, b, t', rfl⟩
  have hgp := hgood p hp h2
  rw [hpart] at hgp
  have hbp : (buildPaths ls).lookup p = some (partitionOf ls p) :=
    buildPaths_lookup ls p hp (by rw [hpart]; exact List.cons_ne_nil _ _)
  obtain ⟨v', hv', hme⟩ := forall₂_mergeEntry_lookup hf p (partitionOf ls p) hbp
  rw [hpart] at hme
  rw [mergeEntry_of_good p v0 v1 vrest hgp] at hme
  have hv'eq : v' = [⟨String.mk (List.intercalate ([Char.ofNat 47])
      (commonPrefixSpec ((v0 :: v1 :: vrest).map (fun l => segsOf l.package)))),
    v0.score, v0.template, v0.path, v0.err, v0.extraWords, v0.missingWords⟩] :=
    (congrArg Prod.snd (Except.ok.inj hme)).symm
  refine ⟨v0, v1 :: vrest, _, hpart, rfl, ?_, ?_, ?_⟩
  · have hv0p : v0 ∈ partitionOf ls p := by
      rw [hpart]
      exact List.mem_cons_self _ _
    refine keepLoop_mem ls m' p _ [] hp
      ⟨v0, (mem_of_mem_partitionOf hv0p).1, (mem_of_mem_partitionOf hv0p).2⟩ ?_
    rw [hv', hv'eq, ← hpart]
  · intro r hr hrp
    obtain ⟨rest', hrest⟩ :=
      keepLoop_lookup_of_mem ls m' hm'paths r hr (by rw [hrp]; exact hp)
    rw [hrp, hv'] at hrest
    rw [hv'eq] at hrest
    have h1 := Option.some.inj hrest
    have hr0 := (List.cons.inj h1).1
    rw [← hr0, ← hpart]
  · intro l hl
    exact commonPrefixSpec_prefix_mem (List.mem_map_of_mem _ hl)

/-- Witness for C3 on the spec's own example: packages `a/x`, `a/y`, `a/z`
sharing one license file satisfy the side conditions, grouping succeeds,
and the merged row has package identifier `a` with the shared fields of
the first row intact. -/
theorem groupLicenses_common_prefix_witness :
    (∀ p : String, p ≠ "" → 2 ≤ (partitionOf exGroupRows p).length →
      goodPartition (partitionOf exGroupRows p)) ∧
    (∃ res, groupLicenses exGroupRows = .ok res ∧
      (⟨"a", 1, none, "L", "", [], []⟩ : License) ∈ res) := by
  have hyp : ∀ p : String, p ≠ "" → 2 ≤ (partitionOf exGroupRows p).length →
      goodPartition (partitionOf exGroupRows p) := by
    intro p hp h2
    by_cases hL : p = "L"
    · subst hL
      have hpart : partitionOf exGroupRows "L" = exGroupRows := rfl
      rw [hpart]
      refine ⟨by decide, by decide, ?_⟩
      intro l hl s hs
      simp only [exGroupRows, List.mem_cons, List.not_mem_nil, or_false] at hl
      rcases hl with rfl | rfl | rfl <;>
      · have h := Option.some.inj hs
        rw [← h]
        decide
    · exfalso
      have hb : (("L" : String) == p) = false := beq_eq_false_iff_ne.mpr (fun h => hL h.symm)
      have hpart : partitionOf exGroupRows p = [] := by
        simp [partitionOf, exGroupRows, List.filter_cons, hb]
      rw [hpart] at h2
      simp at h2
  obtain ⟨res, hres, hall⟩ := groupLicenses_common_prefix exGroupRows hyp
  refine ⟨hyp, res, hres, ?_⟩
  obtain ⟨v0, vrest, row, hpart, hrow, hmem, _, _⟩ := hall "L" (by decide) (by decide)
  have h' : exGroupRows = v0 :: vrest := hpart
  injection h' with h1 _
  rw [hrow, ← h1] at hmem
  exact hmem

end Licenses
